import Mathlib

/-!
# Substring search algorithms of `YaP4.cpp`

A shallow embedding of the substring search routines of `YaP4.cpp` (naive scan,
`std::string::find` loop, `strstr` loop, KMP with its prefix function, Rabin-Karp
with its rolling hash) and theorems about them.

Conventions of the embedding.

* A `std::string` is the list of its `char` codes (`Str = List Int`); a signed
  `char` has a code in `-128..127`, an unsigned one in `0..255`.
* `size_t` is 64 bit wide, `int` 32 bit, `long long` 64 bit.
* A function returns `none` when the C++ execution has no defined result: an
  access outside a string or vector, an overflow of a `long long` operation, a
  failed allocation, or a loop that never exits. The `int` counters of the code
  never leave the range of the lengths, and are natural numbers here.
* `for` loops whose counter runs over a fixed range are written as a recursion on
  the number of iterations left; `while` loops, and the `size_t` loop of
  `naiveSearch` whose counter can wrap, recurse on a fuel that is the number of
  values the loop counter can take, so that running out of fuel means that the
  loop never exits.
-/

namespace YaP4

/-! ## Machine model -/

/-- A `std::string`, as the list of its `char` codes. -/
abbrev Str := List Int

/-- Number of values of `size_t`. -/
def SIZE_T : Nat := 2 ^ 64

/-- Number of values of `int`. -/
def INT_T : Nat := 2 ^ 32

/-- The constant `std::string::npos`, the largest `size_t`. -/
def npos : Nat := 2 ^ 64 - 1

/-- Conversion of a `size_t` to `int` (two's complement, as every mainstream ABI does). -/
def toInt (x : Nat) : Int := (((x + 2 ^ 31) % 2 ^ 32 : Nat) : Int) - 2 ^ 31

/-- Conversion of an `int` to `size_t`. -/
def toSize (x : Int) : Nat := (x % 2 ^ 64).toNat

/-- Result of a `long long` operation: undefined on signed overflow. -/
def i64 (x : Int) : Option Int :=
  if -(2 ^ 63) ≤ x ∧ x < 2 ^ 63 then some x else none

/-- The remainder operator `%` of C++ on signed operands (truncating division). -/
def cmod (a b : Int) : Int := Int.tmod a b

/-- The access `s[pos]` of `std::string`: the character at `pos` when `pos < size()`, the
terminating NUL when `pos == size()`, undefined beyond. -/
def strAt (s : Str) (pos : Nat) : Option Int :=
  if pos ≤ s.length then some (s.getD pos 0) else none

/-- The access `v[i]` of `std::vector<int>` with an `int` index: undefined outside `0..size()-1`. -/
def vecAt (v : List Nat) (i : Int) : Option Nat :=
  if 0 ≤ i ∧ i < v.length then some (v.getD i.toNat 0) else none

/-- The assignment `v[i] = x` of `std::vector<int>`: undefined outside `0..size()-1`. -/
def vecSet (v : List Nat) (i : Nat) (x : Nat) : Option (List Nat) :=
  if i < v.length then some (v.set i x) else none

/-! ## Occurrences (specification side) -/

/-- The pattern occurs in the text at offset `i`: the window `text[i..i+m)` lies inside the
text and agrees with the pattern at each of its `m` positions. -/
def Occurs (text pattern : Str) (i : Nat) : Prop :=
  i + pattern.length ≤ text.length ∧
    ∀ j, j < pattern.length → text.getD (i + j) 0 = pattern.getD j 0

instance (text pattern : Str) (i : Nat) : Decidable (Occurs text pattern i) := by
  unfold Occurs; infer_instance

/-- All offsets at which the pattern occurs in the text, in increasing order. -/
def allOccurrences (text pattern : Str) : List Nat :=
  (List.range (text.length + 1 - pattern.length)).filter (fun i => decide (Occurs text pattern i))

/-! ## `naiveSearch` -/

/-- The inner loop `for (j = 0; j < m; ++j) if (text[i + j] != pattern[j]) break;` of
`naiveSearch`, from `j` with `m - j` iterations left; the result is the final `j`. -/
def naiveInner (text pattern : Str) (i : Nat) : Nat → Nat → Option Nat
  | 0, j => some j
  | left + 1, j =>
    match strAt text ((i + j) % SIZE_T), strAt pattern j with
    | some a, some b =>
      if a ≠ b then some j else naiveInner text pattern i left (j + 1)
    | _, _ => none

/-- The outer loop `for (size_t i = 0; i <= n - m; ++i)` of `naiveSearch`, where `bound` is the
value of `n - m` in `size_t` arithmetic. -/
def naiveOuter (text pattern : Str) (bound : Nat) : Nat → Nat → List Nat → Option (List Nat)
  | 0, _, _ => none
  | fuel + 1, i, positions =>
    if i ≤ bound then
      match naiveInner text pattern i pattern.length 0 with
      | none => none
      | some j =>
        naiveOuter text pattern bound fuel ((i + 1) % SIZE_T)
          (if j = pattern.length then positions ++ [i] else positions)
    else some positions

/-- The function `naiveSearch`. -/
def naiveSearch (text pattern : Str) : Option (List Nat) :=
  let n := text.length
  let m := pattern.length
  naiveOuter text pattern (toSize ((n : Int) - (m : Int))) (SIZE_T + 1) 0 []

/-! ## `stdStringFind` -/

/-- Modelled from the spec: the library primitive `text.find(pattern, from)` of `std::string`,
the least offset `>= from` at which the pattern occurs in the text, or `npos` when there is
none. -/
def find (text pattern : Str) (start : Nat) : Nat :=
  ((List.range (text.length + 1)).find?
    (fun i => decide (start ≤ i ∧ Occurs text pattern i))).getD npos

/-- The loop `while (pos != string::npos)` of `stdStringFind`. -/
def stdFindLoop (text pattern : Str) : Nat → Nat → List Nat → Option (List Nat)
  | 0, _, _ => none
  | fuel + 1, pos, positions =>
    if pos ≠ npos then
      stdFindLoop text pattern fuel (find text pattern ((pos + 1) % SIZE_T)) (positions ++ [pos])
    else some positions

/-- The function `stdStringFind`. -/
def stdStringFind (text pattern : Str) : Option (List Nat) :=
  stdFindLoop text pattern (SIZE_T + 1) (find text pattern 0) []

/-! ## `strstrSearch` -/

/-- The C string that starts at offset `p` of the buffer `c_str()` of `s` (the characters of
`s` followed by a NUL): the characters from `p` up to the first NUL. Undefined when `p` lies
beyond the terminating NUL of the buffer. -/
def cstr (s : Str) (p : Nat) : Option Str :=
  if p ≤ s.length then some ((s.drop p).takeWhile (fun c => decide (c ≠ 0))) else none

/-- Modelled from the spec: the library primitive `strstr(hay + p, needle)` of C on the buffers
of two strings. It yields the offset in `hay` of the first occurrence of the C string `needle`
in the C string that starts at offset `p` of `hay`, or the null pointer (the inner `none`) when
there is none. -/
def strstr (hay : Str) (p : Nat) (needle : Str) : Option (Option Nat) :=
  match cstr hay p, cstr needle 0 with
  | some h, some nd =>
    if find h nd 0 = npos then some none else some (some (p + find h nd 0))
  | _, _ => none

/-- The loop `while (ptr != nullptr)` of `strstrSearch`; a pointer into the text is kept as
its offset `ptr - txt`. -/
def strstrLoop (text pattern : Str) : Nat → Option Nat → List Nat → Option (List Nat)
  | 0, _, _ => none
  | _ + 1, none, positions => some positions
  | fuel + 1, some q, positions =>
    match strstr text (q + 1) pattern with
    | none => none
    | some next => strstrLoop text pattern fuel next (positions ++ [q])

/-- The function `strstrSearch`. -/
def strstrSearch (text pattern : Str) : Option (List Nat) :=
  match strstr text 0 pattern with
  | none => none
  | some ptr => strstrLoop text pattern (SIZE_T + 1) ptr []

/-! ## `computePrefixFunction` and `kmpSearch` -/

/-- The loop `while (k > 0 && pattern[k] != c) k = prefix[k - 1];` that both
`computePrefixFunction` (with `c = pattern[q]`) and `kmpSearch` (with `c = text[i]`, `k` being
its `q`) run, where `c` has been read before the loop. -/
def fallback (pattern : Str) (pfx : List Nat) (c : Int) : Nat → Nat → Option Nat
  | 0, _ => none
  | fuel + 1, k =>
    if 0 < k then
      match strAt pattern k with
      | none => none
      | some a =>
        if a ≠ c then
          match vecAt pfx ((k : Int) - 1) with
          | none => none
          | some k1 => fallback pattern pfx c fuel k1
        else some k
    else some k

/-- The loop `for (int q = 1; q < m; ++q)` of `computePrefixFunction`, from `q` with `left`
iterations to go. -/
def cpfLoop (pattern : Str) : Nat → Nat → Nat → List Nat → Option (List Nat)
  | 0, _, _, pfx => some pfx
  | left + 1, q, k, pfx => do
    let c ← strAt pattern q
    let k1 ← fallback pattern pfx c INT_T k
    let a ← strAt pattern k1
    let k2 := if a = c then k1 + 1 else k1
    let pfx1 ← vecSet pfx q k2
    cpfLoop pattern left (q + 1) k2 pfx1

/-- The function `computePrefixFunction`; `vector<int> prefix(m, 0)` fails for a negative `m`. -/
def computePrefixFunction (pattern : Str) : Option (List Nat) :=
  let m := toInt pattern.length
  if m < 0 then none
  else cpfLoop pattern (m.toNat - 1) 1 0 (List.replicate m.toNat 0)

/-- The loop `for (int i = 0; i < n; ++i)` of `kmpSearch`, from `i` with `left` iterations to
go. -/
def kmpLoop (text pattern : Str) (m : Int) (pfx : List Nat) :
    Nat → Nat → Nat → List Nat → Option (List Nat)
  | 0, _, _, positions => some positions
  | left + 1, i, q, positions => do
    let c ← strAt text i
    let q1 ← fallback pattern pfx c INT_T q
    let a ← strAt pattern q1
    let q2 := if a = c then q1 + 1 else q1
    if (q2 : Int) = m then
      let q3 ← vecAt pfx ((q2 : Int) - 1)
      kmpLoop text pattern m pfx left (i + 1) q3 (positions ++ [toSize ((i : Int) - m + 1)])
    else
      kmpLoop text pattern m pfx left (i + 1) q2 positions

/-- The function `kmpSearch`. -/
def kmpSearch (text pattern : Str) : Option (List Nat) := do
  let n := toInt text.length
  let m := toInt pattern.length
  let pfx ← computePrefixFunction pattern
  kmpLoop text pattern m pfx n.toNat 0 0 []

/-! ## `createHash` and `rabinKarpSearch` -/

/-- The constant `PRIME`. -/
def PRIME : Int := 257

/-- The constant `MOD`. -/
def MOD : Int := 1000000007

/-- The loop `for (int i = 0; i < length; ++i) hash = (hash * PRIME + str[i]) % MOD;` of
`createHash`. -/
def createHashLoop (str : Str) : Nat → Nat → Int → Option Int
  | 0, _, hash => some hash
  | left + 1, i, hash => do
    let c ← strAt str i
    let t ← i64 (hash * PRIME)
    let s ← i64 (t + c)
    createHashLoop str left (i + 1) (cmod s MOD)

/-- The function `createHash`. -/
def createHash (str : Str) (length : Int) : Option Int :=
  createHashLoop str length.toNat 0 0

/-- The loop `for (int i = 1; i < m; ++i) power = (power * PRIME) % MOD;`. -/
def powerLoop : Nat → Int → Option Int
  | 0, power => some power
  | left + 1, power => do
    let t ← i64 (power * PRIME)
    powerLoop left (cmod t MOD)

/-- The loop `for (int i = 0; i <= n - m; ++i)` of `rabinKarpSearch`. Besides `positions` it
records, in `seen`, the value that `textHash` holds at the start of each iteration. -/
def rkLoop (text : Str) (n m patternHash power : Int) :
    Nat → Nat → Int → List Nat → List Int → Option (List Nat × List Int)
  | 0, _, _, positions, seen => some (positions, seen)
  | left + 1, i, textHash, positions, seen => do
    let positions1 := if patternHash = textHash then positions ++ [toSize i] else positions
    if (i : Int) < n - m then
      let c ← strAt text i
      let t1 ← i64 (c * power)
      let t2 ← i64 (textHash - cmod t1 MOD)
      let t3 ← i64 (t2 + MOD)
      let d ← strAt text (toSize ((i : Int) + m))
      let t4 ← i64 (cmod t3 MOD * PRIME)
      let t5 ← i64 (t4 + d)
      rkLoop text n m patternHash power left (i + 1) (cmod t5 MOD) positions1 (seen ++ [textHash])
    else
      rkLoop text n m patternHash power left (i + 1) textHash positions1 (seen ++ [textHash])

/-- The body of `rabinKarpSearch`, returning `positions` together with the recorded values of
`textHash`. -/
def rabinKarpRun (text pattern : Str) : Option (List Nat × List Int) :=
  let n := toInt text.length
  let m := toInt pattern.length
  if m > n then some ([], [])
  else do
    let patternHash ← createHash pattern m
    let textHash ← createHash text m
    let power ← powerLoop (m - 1).toNat 1
    rkLoop text n m patternHash power (n - m + 1).toNat 0 textHash [] []

/-- The function `rabinKarpSearch`. -/
def rabinKarpSearch (text pattern : Str) : Option (List Nat) :=
  (rabinKarpRun text pattern).map Prod.fst

/-- The values of `textHash` at the start of the iterations `i = 0, 1, ..., n - m` of the main
loop of `rabinKarpSearch`. -/
def rabinKarpHashes (text pattern : Str) : Option (List Int) :=
  (rabinKarpRun text pattern).map Prod.snd

/-! ## Notions used to state and prove the results -/

/-- The first `k` characters of `p` are the `k` characters of `s` that end just before
position `i`. -/
def Suf (p s : Str) (i k : Nat) : Prop :=
  k ≤ i ∧ ∀ j, j < k → p.getD j 0 = s.getD (i - k + j) 0

/-- The entries `0 .. B-1` of the table `pfx` are right: entry `L - 1` is the greatest `k < L`
such that the first `k` characters of `p` end the first `L` characters of `p`. -/
def TableUpTo (p : Str) (pfx : List Nat) (B : Nat) : Prop :=
  ∀ L, 0 < L → L ≤ B →
    pfx.getD (L - 1) 0 < L ∧ Suf p p L (pfx.getD (L - 1) 0) ∧
      ∀ k, k < L → Suf p p L k → k ≤ pfx.getD (L - 1) 0

/-- The string `u` is a border of `w`: a proper prefix of `w` that is also a suffix of `w`. -/
def IsBorder (w u : Str) : Prop :=
  u <+: w ∧ u <:+ w ∧ u.length < w.length

/-- Every element is a `char` code: `-128..127` where `char` is signed, `0..255` where it is
unsigned. -/
def IsStr (s : Str) : Prop := ∀ c ∈ s, -128 ≤ c ∧ c ≤ 255

/-- The two assignments that roll `textHash` from the window at `i` to the window at `i + 1`. -/
def roll (text : Str) (m : Nat) (power : Int) (i : Nat) (textHash : Int) : Int :=
  cmod (cmod (textHash - cmod (text.getD i 0 * power) MOD + MOD) MOD * PRIME
    + text.getD (i + m) 0) MOD

/-- Every `char` code of the string is non-negative. -/
def IsNonneg (s : Str) : Prop := ∀ c ∈ s, 0 ≤ c ∧ c ≤ 255

/-- The value `s[i] * PRIME^(L-1) + s[i+1] * PRIME^(L-2) + ... + s[i+L-1]` of the window of
length `L` at `i`, read as a number in base `PRIME`. -/
def windowValue (s : Str) : Nat → Nat → Int
  | _, 0 => 0
  | i, L + 1 => s.getD i 0 * PRIME ^ L + windowValue s (i + 1) L

/-! ## Sample strings -/

/-- The string `aaaa`. -/
def s_aaaa : Str := [97, 97, 97, 97]

/-- The string `aa`. -/
def s_aa : Str := [97, 97]

/-- The string `abababa`. -/
def s_abababa : Str := [97, 98, 97, 98, 97, 98, 97]

/-- The string `aba`. -/
def s_aba : Str := [97, 98, 97]

/-- The string `ababaca`. -/
def s_ababaca : Str := [97, 98, 97, 98, 97, 99, 97]

/-- The string `ab`. -/
def s_ab : Str := [97, 98]

/-- The string `abc`. -/
def s_abc : Str := [97, 98, 99]

/-- The string `Harry`, the first pattern that `main` searches for. -/
def s_Harry : Str := [72, 97, 114, 114, 121]

/-- The string `.zpfq`, which has the same hash as `Harry`. -/
def s_zpfq : Str := [46, 122, 112, 102, 113]

/-- The UTF-8 bytes `61 C3 A9` of `aé`, as signed `char` codes. -/
def s_a_eacute : Str := [97, -61, -87]

/-- The UTF-8 bytes `C3 A9` of `é`, as signed `char` codes. -/
def s_eacute : Str := [-61, -87]

/-- The string `hello world`. -/
def s_hello_world : Str := [104, 101, 108, 108, 111, 32, 119, 111, 114, 108, 100]

/-- The string `world`. -/
def s_world : Str := [119, 111, 114, 108, 100]

/-- The string `abcdef`. -/
def s_abcdef : Str := [97, 98, 99, 100, 101, 102]

/-- The string `xyz`. -/
def s_xyz : Str := [120, 121, 122]

/-- The string `a`. -/
def s_a : Str := [97]

/-- The empty string. -/
def s_empty : Str := []

/-- The three bytes `a`, NUL, `a`. -/
def s_a_nul_a : Str := [97, 0, 97]

/-- The two bytes `a`, NUL. -/
def s_a_nul : Str := [97, 0]

/-- The string of `2^31` characters `a` (2 GiB), the shortest whose length is no `int`. -/
def s_long : Str := List.replicate (2 ^ 31) 97

/-- The string of `2^31 + 1` characters `a`. -/
def s_longer : Str := List.replicate (2 ^ 31 + 1) 97

/-- The string contains no NUL character. -/
def NoNul (s : Str) : Prop := (0 : Int) ∉ s

/-- A pointer returned by `strstr`, from the offset that `find` returns: the null pointer
for `npos`. -/
def toPtr (pos : Nat) : Option Nat := if pos = npos then none else some pos

/-! ## Basic facts of the machine model -/

theorem toInt_of_lt {x : Nat} (h : x < 2 ^ 31) : toInt x = (x : Int) := by
  unfold toInt
  omega

theorem toSize_sub {n m : Nat} (h : m ≤ n) (hn : n < 2 ^ 64) :
    toSize ((n : Int) - (m : Int)) = n - m := by
  unfold toSize
  omega

theorem toSize_sub_neg {n m : Nat} (h : n < m) (hm : m < 2 ^ 64) :
    toSize ((n : Int) - (m : Int)) = 2 ^ 64 - (m - n) := by
  unfold toSize
  omega

theorem strAt_of_le {s : Str} {pos : Nat} (h : pos ≤ s.length) :
    strAt s pos = some (s.getD pos 0) := by
  simp [strAt, h]

theorem strAt_of_gt {s : Str} {pos : Nat} (h : s.length < pos) : strAt s pos = none := by
  simp [strAt, h]

theorem mem_allOccurrences {text pattern : Str} {i : Nat} :
    i ∈ allOccurrences text pattern ↔ Occurs text pattern i := by
  unfold allOccurrences
  simp only [List.mem_filter, List.mem_range, decide_eq_true_eq, and_iff_right_iff_imp]
  intro h
  have := h.1
  omega

theorem sorted_allOccurrences (text pattern : Str) :
    (allOccurrences text pattern).Sorted (· < ·) := by
  unfold allOccurrences
  exact (List.sorted_lt_range _).filter _

/-! ## Proofs for `naiveSearch` -/

theorem naiveInner_spec (text pattern : Str) (i : Nat)
    (hi : i + pattern.length ≤ text.length) (hn : text.length < 2 ^ 64) :
    ∀ left j, j + left = pattern.length →
      ∃ r, naiveInner text pattern i left j = some r ∧
        (r = pattern.length ↔
          ∀ t, j ≤ t → t < pattern.length → text.getD (i + t) 0 = pattern.getD t 0) := by
  intro left
  induction left with
  | zero =>
    intro j hj
    refine ⟨j, rfl, ?_⟩
    constructor
    · intro _ t h1 h2
      omega
    · intro _
      omega
  | succ left ih =>
    intro j hj
    have h1 : (i + j) % SIZE_T = i + j := by
      unfold SIZE_T
      omega
    have h2 : strAt text (i + j) = some (text.getD (i + j) 0) := strAt_of_le (by omega)
    have h3 : strAt pattern j = some (pattern.getD j 0) := strAt_of_le (by omega)
    unfold naiveInner
    rw [h1, h2, h3]
    by_cases hc : text.getD (i + j) 0 = pattern.getD j 0
    · obtain ⟨r, hr, hiff⟩ := ih (j + 1) (by omega)
      refine ⟨r, by simp only []; rw [if_neg (not_not_intro hc), hr], ?_⟩
      rw [hiff]
      constructor
      · intro h t ht1 ht2
        rcases Nat.eq_or_lt_of_le ht1 with heq | hlt
        · rw [← heq]
          exact hc
        · exact h t hlt ht2
      · intro h t ht1 ht2
        exact h t (by omega) ht2
    · refine ⟨j, by simp only []; rw [if_pos hc], ?_⟩
      constructor
      · intro h
        omega
      · intro h
        exact absurd (h j (le_refl j) (by omega)) hc

theorem naiveInner_occurs (text pattern : Str) (i : Nat)
    (hi : i + pattern.length ≤ text.length) (hn : text.length < 2 ^ 64) :
    ∃ r, naiveInner text pattern i pattern.length 0 = some r ∧
      (r = pattern.length ↔ Occurs text pattern i) := by
  obtain ⟨r, hr, hiff⟩ := naiveInner_spec text pattern i hi hn pattern.length 0 (by omega)
  refine ⟨r, hr, ?_⟩
  rw [hiff]
  unfold Occurs
  constructor
  · intro h
    exact ⟨hi, fun j hj => h j (Nat.zero_le j) hj⟩
  · intro h t _ ht
    exact h.2 t ht

theorem naiveOuter_spec (text pattern : Str) (hm : pattern.length ≤ text.length)
    (hn : text.length + 1 < 2 ^ 64) :
    ∀ fuel i positions, i ≤ text.length - pattern.length + 1 →
      text.length - pattern.length + 1 - i < fuel →
      naiveOuter text pattern (text.length - pattern.length) fuel i positions =
        some (positions ++ (List.range' i (text.length - pattern.length + 1 - i)).filter
          (fun i => decide (Occurs text pattern i))) := by
  intro fuel
  induction fuel with
  | zero =>
    intro i positions _ h
    omega
  | succ fuel ih =>
    intro i positions h1 h2
    unfold naiveOuter
    by_cases hle : i ≤ text.length - pattern.length
    · obtain ⟨r, hr, hiff⟩ := naiveInner_occurs text pattern i (by omega) (by omega)
      have hmod : (i + 1) % SIZE_T = i + 1 := by
        unfold SIZE_T
        omega
      have hcnt : text.length - pattern.length + 1 - i =
          (text.length - pattern.length + 1 - (i + 1)) + 1 := by omega
      rw [if_pos hle, hr, hmod]
      simp only []
      rw [ih (i + 1) _ (by omega) (by omega), hcnt, List.range'_succ]
      by_cases ho : Occurs text pattern i
      · simp [hiff.mpr ho, ho]
      · have hne : r ≠ pattern.length := fun h => ho (hiff.mp h)
        simp [hne, ho]
    · have h0 : text.length - pattern.length + 1 - i = 0 := by omega
      rw [if_neg hle, h0]
      simp

theorem naiveSearch_eq (text pattern : Str) (hm : pattern.length ≤ text.length)
    (hn : text.length + 1 < 2 ^ 64) :
    naiveSearch text pattern = some (allOccurrences text pattern) := by
  unfold naiveSearch
  simp only []
  rw [toSize_sub hm (by omega), naiveOuter_spec text pattern hm hn _ 0 [] (by omega)
    (by unfold SIZE_T; omega)]
  unfold allOccurrences
  have : text.length + 1 - pattern.length = text.length - pattern.length + 1 := by omega
  rw [this, List.range_eq_range']
  simp

theorem naiveOuter_oversized (text pattern : Str) (bound : Nat)
    (hm : text.length < pattern.length) (hp : pattern.length < 2 ^ 64)
    (hb : text.length + 1 ≤ bound) :
    ∀ fuel i positions, i ≤ text.length + 1 → text.length + 1 - i < fuel →
      naiveOuter text pattern bound fuel i positions = none := by
  intro fuel
  induction fuel with
  | zero =>
    intro i positions _ h
    omega
  | succ fuel ih =>
    intro i positions h1 h2
    unfold naiveOuter
    rw [if_pos (by omega)]
    rcases Nat.eq_or_lt_of_le h1 with heq | hlt
    · obtain ⟨k, hk⟩ : ∃ k, pattern.length = k + 1 := ⟨pattern.length - 1, by omega⟩
      have hmod : (i + 0) % SIZE_T = text.length + 1 := by
        unfold SIZE_T
        omega
      have : naiveInner text pattern i pattern.length 0 = none := by
        rw [hk]
        unfold naiveInner
        rw [hmod, strAt_of_gt (by omega)]
      rw [this]
    · cases hin : naiveInner text pattern i pattern.length 0 with
      | none => rfl
      | some j =>
        have hmod : (i + 1) % SIZE_T = i + 1 := by
          unfold SIZE_T
          omega
        simp only []
        rw [hmod]
        exact ih (i + 1) _ (by omega) (by omega)

theorem naiveSearch_oversized (text pattern : Str)
    (hm : text.length < pattern.length) (hp : pattern.length < 2 ^ 64) :
    naiveSearch text pattern = none := by
  unfold naiveSearch
  simp only []
  rw [toSize_sub_neg hm hp]
  exact naiveOuter_oversized text pattern _ hm hp (by omega) _ 0 [] (by omega)
    (by unfold SIZE_T; omega)

/-! ## Proofs for `stdStringFind` -/

theorem find?_range'_least (p : Nat → Bool) :
    ∀ cnt s,
      ((List.range' s cnt).find? p = none ∧ ∀ i, s ≤ i → i < s + cnt → p i = false) ∨
      (∃ r, (List.range' s cnt).find? p = some r ∧ s ≤ r ∧ r < s + cnt ∧ p r = true ∧
        ∀ i, s ≤ i → i < r → p i = false) := by
  intro cnt
  induction cnt with
  | zero =>
    intro s
    left
    refine ⟨by simp, ?_⟩
    intro i h1 h2
    omega
  | succ cnt ih =>
    intro s
    rw [List.range'_succ]
    cases hp : p s with
    | true =>
      right
      refine ⟨s, by simp [hp], le_refl s, by omega, hp, ?_⟩
      intro i h1 h2
      omega
    | false =>
      have hf : List.find? p (s :: List.range' (s + 1) cnt) =
          List.find? p (List.range' (s + 1) cnt) := by
        simp [hp]
      rw [hf]
      rcases ih (s + 1) with ⟨h1, h2⟩ | ⟨r, h1, h2, h3, h4, h5⟩
      · left
        refine ⟨h1, ?_⟩
        intro i hi1 hi2
        rcases Nat.eq_or_lt_of_le hi1 with heq | hlt
        · rw [← heq]
          exact hp
        · exact h2 i hlt (by omega)
      · right
        refine ⟨r, h1, by omega, by omega, h4, ?_⟩
        intro i hi1 hi2
        rcases Nat.eq_or_lt_of_le hi1 with heq | hlt
        · rw [← heq]
          exact hp
        · exact h5 i hlt hi2

theorem find_cases (text pattern : Str) (start : Nat) :
    (find text pattern start = npos ∧ ∀ i, start ≤ i → ¬ Occurs text pattern i) ∨
    (start ≤ find text pattern start ∧ Occurs text pattern (find text pattern start) ∧
      ∀ i, start ≤ i → i < find text pattern start → ¬ Occurs text pattern i) := by
  unfold find
  rw [List.range_eq_range']
  rcases find?_range'_least (fun i => decide (start ≤ i ∧ Occurs text pattern i))
    (text.length + 1) 0 with ⟨h1, h2⟩ | ⟨r, h1, _, _, h4, h5⟩
  · left
    rw [h1]
    refine ⟨rfl, ?_⟩
    intro i hi ho
    have hlt : i < 0 + (text.length + 1) := by
      have := ho.1
      omega
    have := h2 i (Nat.zero_le i) hlt
    simp only [decide_eq_false_iff_not, not_and] at this
    exact this hi ho
  · right
    rw [h1]
    simp only [decide_eq_true_eq] at h4
    refine ⟨h4.1, h4.2, ?_⟩
    intro i hi1 hi2 ho
    have := h5 i (Nat.zero_le i) hi2
    simp only [decide_eq_false_iff_not, not_and] at this
    exact this hi1 ho

theorem filter_occurs_range' (text pattern : Str) (s cnt : Nat)
    (h : ∀ i, s ≤ i → i < s + cnt → ¬ Occurs text pattern i) :
    (List.range' s cnt).filter (fun i => decide (Occurs text pattern i)) = [] := by
  rw [List.filter_eq_nil_iff]
  intro a ha
  rw [List.mem_range'_1] at ha
  simpa using h a ha.1 ha.2

theorem range'_split (s a b : Nat) (h : a ≤ b) :
    List.range' s b = List.range' s a ++ List.range' (s + a) (b - a) := by
  rw [List.range'_append_1]
  congr 1
  omega

theorem allOccurrences_eq_range (text pattern : Str) :
    allOccurrences text pattern =
      (List.range' 0 (text.length + 1)).filter (fun i => decide (Occurs text pattern i)) := by
  unfold allOccurrences
  rw [List.range_eq_range',
    range'_split 0 (text.length + 1 - pattern.length) (text.length + 1) (by omega),
    List.filter_append, filter_occurs_range' text pattern (0 + (text.length + 1 - pattern.length)),
    List.append_nil]
  intro i h1 _ ho
  have := ho.1
  omega

theorem stdFindLoop_spec (text pattern : Str) (hn : text.length + 1 < 2 ^ 64) :
    ∀ fuel start positions, start ≤ text.length + 1 → text.length + 1 - start < fuel →
      stdFindLoop text pattern fuel (find text pattern start) positions =
        some (positions ++ (List.range' start (text.length + 1 - start)).filter
          (fun i => decide (Occurs text pattern i))) := by
  intro fuel
  induction fuel with
  | zero =>
    intro start positions _ h
    omega
  | succ fuel ih =>
    intro start positions h1 h2
    unfold stdFindLoop
    rcases find_cases text pattern start with ⟨hf, hno⟩ | ⟨hle, hocc, hleast⟩
    · rw [hf, if_neg (by simp), filter_occurs_range' text pattern _ _ (fun i hi _ => hno i hi),
        List.append_nil]
    · generalize find text pattern start = pos at hle hocc hleast
      have hpos : pos + pattern.length ≤ text.length := hocc.1
      have hne : pos ≠ npos := by
        unfold npos
        omega
      have hmod : (pos + 1) % SIZE_T = pos + 1 := by
        unfold SIZE_T
        omega
      have hpos2 : start + (pos - start) = pos := by omega
      have hcnt : text.length + 1 - start - (pos - start) = (text.length + 1 - (pos + 1)) + 1 := by
        omega
      rw [if_pos hne, hmod, ih (pos + 1) _ (by omega) (by omega),
        range'_split start (pos - start) (text.length + 1 - start) (by omega),
        List.filter_append, hpos2,
        filter_occurs_range' text pattern start (pos - start)
          (fun i hi1 hi2 => hleast i hi1 (by omega)),
        hcnt, List.range'_succ, List.filter_cons_of_pos (by simpa using hocc)]
      simp

theorem stdStringFind_eq (text pattern : Str) (hn : text.length + 1 < 2 ^ 64) :
    stdStringFind text pattern = some (allOccurrences text pattern) := by
  unfold stdStringFind
  rw [stdFindLoop_spec text pattern hn _ 0 [] (by omega) (by unfold SIZE_T; omega),
    allOccurrences_eq_range]
  simp

/-! ## Proofs for `computePrefixFunction` and `kmpSearch` -/

theorem suf_zero (p s : Str) (i : Nat) : Suf p s i 0 :=
  ⟨Nat.zero_le i, fun j hj => absurd hj (Nat.not_lt_zero j)⟩

theorem suf_trans {p s : Str} {i k j : Nat} (h1 : Suf p s i k) (h2 : Suf p p k j) :
    Suf p s i j := by
  refine ⟨le_trans h2.1 h1.1, ?_⟩
  intro t ht
  have e1 := h2.2 t ht
  have e2 := h1.2 (k - j + t) (by have := h2.1; omega)
  have e3 : i - k + (k - j + t) = i - j + t := by
    have := h2.1
    have := h1.1
    omega
  rw [e1, e2, e3]

theorem suf_of_suf {p s : Str} {i k j : Nat} (h1 : Suf p s i k) (h2 : Suf p s i j)
    (hjk : j ≤ k) : Suf p p k j := by
  refine ⟨hjk, ?_⟩
  intro t ht
  have e1 := h2.2 t ht
  have e2 := h1.2 (k - j + t) (by omega)
  have e3 : i - k + (k - j + t) = i - j + t := by
    have := h1.1
    omega
  rw [e1, e2, e3]

theorem suf_succ {p s : Str} {i k : Nat} :
    Suf p s (i + 1) (k + 1) ↔ Suf p s i k ∧ p.getD k 0 = s.getD i 0 := by
  constructor
  · intro h
    have hk : k ≤ i := by
      have := h.1
      omega
    refine ⟨⟨hk, ?_⟩, ?_⟩
    · intro j hj
      have e := h.2 j (by omega)
      have : i + 1 - (k + 1) + j = i - k + j := by omega
      rw [e, this]
    · have e := h.2 k (by omega)
      have : i + 1 - (k + 1) + k = i := by omega
      rw [e, this]
  · intro h
    obtain ⟨⟨hk, h1⟩, h2⟩ := h
    refine ⟨by omega, ?_⟩
    intro j hj
    rcases Nat.eq_or_lt_of_le (Nat.le_of_lt_succ hj) with heq | hlt
    · have : i + 1 - (k + 1) + j = i := by omega
      rw [this, heq, h2]
    · have : i + 1 - (k + 1) + j = i - k + j := by omega
      rw [this]
      exact h1 j hlt

theorem vecAt_pred {v : List Nat} {k : Nat} (h1 : 0 < k) (h2 : k ≤ v.length) :
    vecAt v ((k : Int) - 1) = some (v.getD (k - 1) 0) := by
  unfold vecAt
  have : ((k : Int) - 1).toNat = k - 1 := by omega
  rw [if_pos (by omega), this]

/-- The `while` loop of both KMP routines ends, within the table, on the longest candidate. -/
theorem fallback_spec (p s : Str) (pfx : List Nat) (i B K : Nat)
    (htab : TableUpTo p pfx B) (hB : B ≤ p.length) (hlen : B ≤ pfx.length) :
    ∀ fuel k, k < fuel → k ≤ B → Suf p s i k →
      (∀ j, j < K → Suf p s i j → p.getD j 0 = s.getD i 0 → j ≤ k) →
      ∃ r, fallback p pfx (s.getD i 0) fuel k = some r ∧ r ≤ k ∧ Suf p s i r ∧
        (∀ j, j < K → Suf p s i j → p.getD j 0 = s.getD i 0 → j ≤ r) ∧
        (r = 0 ∨ p.getD r 0 = s.getD i 0) := by
  intro fuel
  induction fuel with
  | zero =>
    intro k h
    omega
  | succ fuel ih =>
    intro k hfuel hk hsuf hmax
    unfold fallback
    by_cases hpos : 0 < k
    · rw [if_pos hpos, strAt_of_le (by omega)]
      simp only []
      by_cases hc : p.getD k 0 = s.getD i 0
      · rw [if_neg (not_not_intro hc)]
        exact ⟨k, rfl, le_refl k, hsuf, hmax, Or.inr hc⟩
      · rw [if_pos hc, vecAt_pred hpos (by omega)]
        simp only []
        obtain ⟨t1, t2, t3⟩ := htab k hpos hk
        obtain ⟨r, hr1, hr2, hr3, hr4, hr5⟩ := ih (pfx.getD (k - 1) 0) (by omega) (by omega)
          (suf_trans hsuf t2) (by
            intro j hjK hj hjc
            have hjk : j ≤ k := hmax j hjK hj hjc
            have hne : j ≠ k := by
              intro heq
              rw [heq] at hjc
              exact hc hjc
            exact t3 j (by omega) (suf_of_suf hsuf hj hjk))
        exact ⟨r, hr1, by omega, hr3, hr4, hr5⟩
    · have hk0 : k = 0 := by omega
      rw [if_neg hpos]
      exact ⟨k, rfl, le_refl k, hsuf, hmax, Or.inl hk0⟩

/-- After the `while` loop, the test `if (pattern[k] == c) ++k;` yields the longest prefix of
the pattern that ends at the next position. -/
theorem extend_spec {p s : Str} {i K r : Nat} (hsuf : Suf p s i r)
    (hmax : ∀ j, j < K → Suf p s i j → p.getD j 0 = s.getD i 0 → j ≤ r)
    (hr : r = 0 ∨ p.getD r 0 = s.getD i 0) :
    Suf p s (i + 1) (if p.getD r 0 = s.getD i 0 then r + 1 else r) ∧
      ∀ j, j ≤ K → Suf p s (i + 1) j → j ≤ (if p.getD r 0 = s.getD i 0 then r + 1 else r) := by
  by_cases hc : p.getD r 0 = s.getD i 0
  · rw [if_pos hc]
    refine ⟨suf_succ.mpr ⟨hsuf, hc⟩, ?_⟩
    intro j hjK hj
    cases j with
    | zero => omega
    | succ j =>
      obtain ⟨h1, h2⟩ := suf_succ.mp hj
      have := hmax j (by omega) h1 h2
      omega
  · rw [if_neg hc]
    have hr0 : r = 0 := by
      rcases hr with h | h
      · exact h
      · exact absurd h hc
    subst hr0
    refine ⟨suf_zero p s (i + 1), ?_⟩
    intro j hjK hj
    cases j with
    | zero => omega
    | succ j =>
      obtain ⟨h1, h2⟩ := suf_succ.mp hj
      have hj0 : j ≤ 0 := hmax j (by omega) h1 h2
      have : j = 0 := by omega
      subst this
      exact absurd h2 hc

theorem getD_set (l : List Nat) (i j x : Nat) :
    (l.set i x).getD j 0 = if i = j ∧ i < l.length then x else l.getD j 0 := by
  simp only [List.getD_eq_getElem?_getD, List.getElem?_set]
  by_cases h : i = j
  · subst h
    by_cases h2 : i < l.length
    · simp [h2]
    · have : l[i]? = none := List.getElem?_eq_none (by omega)
      simp [h2, this]
  · simp [h]

theorem cpfLoop_spec (p : Str) (hm : p.length < 2 ^ 31) :
    ∀ left q k pfx, 0 < q → q + left = p.length → pfx.length = p.length →
      TableUpTo p pfx q → k = pfx.getD (q - 1) 0 →
      ∃ tbl, cpfLoop p left q k pfx = some tbl ∧ tbl.length = p.length ∧
        TableUpTo p tbl p.length := by
  intro left
  induction left with
  | zero =>
    intro q k pfx _ hq hlen htab _
    have : q = p.length := by omega
    subst this
    exact ⟨pfx, rfl, hlen, htab⟩
  | succ left ih =>
    intro q k pfx hq0 hq hlen htab hk
    obtain ⟨t1, t2, t3⟩ := htab q hq0 (le_refl q)
    rw [← hk] at t1 t2 t3
    obtain ⟨r, hr1, hr2, hr3, hr4, hr5⟩ :=
      fallback_spec p p pfx q q q htab (by omega) (by omega) INT_T k
        (by unfold INT_T; omega) (by omega) t2 (fun j hj1 hj2 _ => t3 j hj1 hj2)
    obtain ⟨e1, e2⟩ := extend_spec hr3 hr4 hr5
    have hs1 : strAt p q = some (p.getD q 0) := strAt_of_le (by omega)
    have hs2 : strAt p r = some (p.getD r 0) := strAt_of_le (by omega)
    generalize hk2 : (if p.getD r 0 = p.getD q 0 then r + 1 else r) = k2 at e1 e2
    have hk2q : k2 ≤ q := by
      rw [← hk2]
      split <;> omega
    have hset : vecSet pfx q k2 = some (pfx.set q k2) := by
      unfold vecSet
      rw [if_pos (by omega)]
    have hstep : cpfLoop p (left + 1) q k pfx = cpfLoop p left (q + 1) k2 (pfx.set q k2) := by
      conv_lhs => unfold cpfLoop
      simp only [hs1, hr1, hs2, Option.bind_eq_bind, Option.some_bind, hk2, hset]
    rw [hstep]
    apply ih (q + 1) k2 (pfx.set q k2) (by omega) (by omega) (by rw [List.length_set]; exact hlen)
    · intro L hL0 hL
      rw [getD_set]
      by_cases hLq : q = L - 1
      · rw [if_pos ⟨hLq, by omega⟩]
        have hLe : L = q + 1 := by omega
        subst hLe
        exact ⟨by omega, e1, fun j hj1 hj2 => e2 j (by omega) hj2⟩
      · rw [if_neg (fun h => hLq h.1)]
        exact htab L hL0 (by omega)
    · rw [getD_set, if_pos ⟨by omega, by omega⟩]

theorem computePrefixFunction_spec (p : Str) (hm : p.length < 2 ^ 31) :
    ∃ tbl, computePrefixFunction p = some tbl ∧ tbl.length = p.length ∧
      TableUpTo p tbl p.length := by
  unfold computePrefixFunction
  simp only []
  rw [toInt_of_lt hm, if_neg (by omega), Int.toNat_ofNat]
  by_cases h0 : p.length = 0
  · rw [h0]
    refine ⟨[], rfl, rfl, ?_⟩
    intro L h1 h2
    omega
  · apply cpfLoop_spec p hm (p.length - 1) 1 0 _ (by omega) (by omega) (by simp)
    · intro L h1 h2
      have hL : L = 1 := by omega
      subst hL
      have hz : (List.replicate p.length 0).getD (1 - 1) 0 = 0 := by
        simp only [List.getD_eq_getElem?_getD, List.getElem?_replicate]
        split <;> rfl
      rw [hz]
      exact ⟨by omega, suf_zero p p 1, fun k hk _ => by omega⟩
    · simp only [List.getD_eq_getElem?_getD, List.getElem?_replicate]
      split <;> rfl

theorem occurs_iff_suf {text p : Str} {e : Nat} (h1 : p.length ≤ e) (h2 : e ≤ text.length) :
    Occurs text p (e - p.length) ↔ Suf p text e p.length := by
  unfold Occurs Suf
  constructor
  · intro h
    exact ⟨h1, fun j hj => (h.2 j hj).symm⟩
  · intro h
    exact ⟨by omega, fun j hj => (h.2 j hj).symm⟩

theorem filter_range_succ (P : Nat → Prop) [DecidablePred P] (k : Nat) :
    (List.range (k + 1)).filter (fun i => decide (P i)) =
      (List.range k).filter (fun i => decide (P i)) ++ (if P k then [k] else []) := by
  rw [List.range_succ, List.filter_append]
  by_cases h : P k
  · simp [h]
  · simp [h]

theorem kmpLoop_spec (text p : Str) (pfx : List Nat) (hm0 : 0 < p.length)
    (hn : text.length < 2 ^ 31) (hm : p.length < 2 ^ 31) (hlen : pfx.length = p.length)
    (htab : TableUpTo p pfx p.length) :
    ∀ left i q positions, i + left = text.length → q < p.length → Suf p text i q →
      (∀ j, j < p.length → Suf p text i j → j ≤ q) →
      positions = (List.range (i + 1 - p.length)).filter (fun o => decide (Occurs text p o)) →
      kmpLoop text p (p.length : Int) pfx left i q positions =
        some (allOccurrences text p) := by
  intro left
  induction left with
  | zero =>
    intro i q positions hi _ _ _ hpos
    have : i = text.length := by omega
    subst this
    unfold kmpLoop allOccurrences
    rw [hpos]
  | succ left ih =>
    intro i q positions hi hq hsuf hmax hpos
    obtain ⟨r, hr1, hr2, hr3, hr4, hr5⟩ :=
      fallback_spec p text pfx i p.length p.length htab (le_refl _) (by omega) INT_T q
        (by unfold INT_T; omega) (by omega) hsuf (fun j hj1 hj2 _ => hmax j hj1 hj2)
    obtain ⟨e1, e2⟩ := extend_spec hr3 hr4 hr5
    have hs1 : strAt text i = some (text.getD i 0) := strAt_of_le (by omega)
    have hs2 : strAt p r = some (p.getD r 0) := strAt_of_le (by omega)
    generalize hk2 : (if p.getD r 0 = text.getD i 0 then r + 1 else r) = k2 at e1 e2
    have hk2m : k2 ≤ p.length := by
      rw [← hk2]
      split <;> omega
    by_cases hfull : k2 = p.length
    · have hme : p.length ≤ i + 1 := by
        have := e1.1
        omega
      obtain ⟨t1, t2, t3⟩ := htab p.length hm0 (le_refl _)
      have hv : vecAt pfx ((k2 : Int) - 1) = some (pfx.getD (p.length - 1) 0) := by
        rw [hfull]
        exact vecAt_pred hm0 (by omega)
      have hsz : toSize ((i : Int) - (p.length : Int) + 1) = i + 1 - p.length := by
        unfold toSize
        omega
      have hstep : kmpLoop text p (p.length : Int) pfx (left + 1) i q positions =
          kmpLoop text p (p.length : Int) pfx left (i + 1) (pfx.getD (p.length - 1) 0)
            (positions ++ [i + 1 - p.length]) := by
        conv_lhs => unfold kmpLoop
        simp only [hs1, hr1, hs2, Option.bind_eq_bind, Option.some_bind, hk2]
        rw [if_pos (by rw [hfull]), hv]
        simp only [Option.some_bind, hsz]
      rw [hfull] at e1
      rw [hstep]
      apply ih (i + 1) _ _ (by omega) t1 (suf_trans e1 t2)
      · intro j hj1 hj2
        exact t3 j hj1 (suf_of_suf e1 hj2 (by omega))
      · have hcnt : i + 1 + 1 - p.length = (i + 1 - p.length) + 1 := by omega
        have hocc : Occurs text p (i + 1 - p.length) :=
          (occurs_iff_suf hme (by omega)).mpr e1
        rw [hcnt, filter_range_succ (fun o => Occurs text p o), if_pos hocc, hpos]
    · have hlt : k2 < p.length := by omega
      have hstep : kmpLoop text p (p.length : Int) pfx (left + 1) i q positions =
          kmpLoop text p (p.length : Int) pfx left (i + 1) k2 positions := by
        conv_lhs => unfold kmpLoop
        simp only [hs1, hr1, hs2, Option.bind_eq_bind, Option.some_bind, hk2]
        rw [if_neg (by omega)]
      rw [hstep]
      apply ih (i + 1) _ _ (by omega) hlt e1 (fun j hj1 hj2 => e2 j (by omega) hj2)
      by_cases hme : p.length ≤ i + 1
      · have hcnt : i + 1 + 1 - p.length = (i + 1 - p.length) + 1 := by omega
        have hocc : ¬ Occurs text p (i + 1 - p.length) := by
          intro ho
          have := e2 p.length (le_refl _) ((occurs_iff_suf hme (by omega)).mp ho)
          omega
        rw [hcnt, filter_range_succ (fun o => Occurs text p o), if_neg hocc, hpos,
          List.append_nil]
      · have h1 : i + 1 + 1 - p.length = 0 := by omega
        have h2 : i + 1 - p.length = 0 := by omega
        rw [hpos, h1, h2]

theorem kmpSearch_eq (text p : Str) (hm0 : 0 < p.length)
    (hn : text.length < 2 ^ 31) (hm : p.length < 2 ^ 31) :
    kmpSearch text p = some (allOccurrences text p) := by
  obtain ⟨tbl, h1, h2, h3⟩ := computePrefixFunction_spec p hm
  have hstart : kmpSearch text p =
      kmpLoop text p (p.length : Int) tbl text.length 0 0 [] := by
    unfold kmpSearch
    rw [h1, toInt_of_lt hn, toInt_of_lt hm]
    rfl
  rw [hstart]
  apply kmpLoop_spec text p tbl hm0 hn hm h2 h3 text.length 0 0 [] (by omega) hm0
    (suf_zero p text 0)
  · intro j _ hj
    exact hj.1
  · have : 0 + 1 - p.length = 0 := by omega
    rw [this]
    rfl

/-! ## Occurrences and borders in terms of `take` and `drop` -/

theorem getD_eq_iff {a b : Str} {i j : Nat} (hi : i < a.length) (hj : j < b.length) :
    a.getD i 0 = b.getD j 0 ↔ a[i]? = b[j]? := by
  simp only [List.getD_eq_getElem?_getD, List.getElem?_eq_getElem hi, List.getElem?_eq_getElem hj,
    Option.getD_some, Option.some.injEq]

theorem occurs_iff_slice (text p : Str) (i : Nat) :
    Occurs text p i ↔ i + p.length ≤ text.length ∧ (text.drop i).take p.length = p := by
  unfold Occurs
  constructor
  · intro h
    refine ⟨h.1, ?_⟩
    apply List.ext_getElem?
    intro j
    rw [List.getElem?_take, List.getElem?_drop]
    by_cases hj : j < p.length
    · rw [if_pos hj]
      exact (getD_eq_iff (by have := h.1; omega) hj).mp (h.2 j hj)
    · rw [if_neg hj, List.getElem?_eq_none (by omega)]
  · intro h
    refine ⟨h.1, ?_⟩
    intro j hj
    rw [getD_eq_iff (by have := h.1; omega) hj]
    conv_rhs => rw [← h.2]
    rw [List.getElem?_take, List.getElem?_drop, if_pos hj]

theorem border_of_suf {p : Str} {L k : Nat} (hL : L ≤ p.length) (hk : k < L)
    (h : Suf p p L k) : IsBorder (p.take L) (p.take k) := by
  have hlenL : (p.take L).length = L := by
    rw [List.length_take]
    omega
  have hlenk : (p.take k).length = k := by
    rw [List.length_take]
    omega
  refine ⟨List.take_prefix_take_left p (by omega), ?_, by omega⟩
  rw [List.suffix_iff_eq_drop, hlenL, hlenk]
  apply List.ext_getElem?
  intro j
  rw [List.getElem?_drop, List.getElem?_take, List.getElem?_take]
  by_cases hj : j < k
  · rw [if_pos hj, if_pos (by omega)]
    exact (getD_eq_iff (by omega) (by omega)).mp (h.2 j hj)
  · rw [if_neg hj, if_neg (by omega)]

theorem suf_of_border {p u : Str} {L : Nat} (hL : L ≤ p.length)
    (h : IsBorder (p.take L) u) : u.length < L ∧ Suf p p L u.length := by
  have hlenL : (p.take L).length = L := by
    rw [List.length_take]
    omega
  obtain ⟨h1, h2, h3⟩ := h
  rw [hlenL] at h3
  refine ⟨h3, by omega, ?_⟩
  intro j hj
  rw [getD_eq_iff (by omega) (by omega)]
  rw [List.prefix_iff_eq_take] at h1
  rw [List.suffix_iff_eq_drop, hlenL] at h2
  have e1 : u[j]? = p[j]? := by
    conv_lhs => rw [h1]
    rw [List.getElem?_take, if_pos hj, List.getElem?_take, if_pos (by omega)]
  have e2 : u[j]? = p[L - u.length + j]? := by
    conv_lhs => rw [h2]
    rw [List.getElem?_drop, List.getElem?_take, if_pos (by omega)]
  rw [← e1, e2]

/-! ## Proofs for `rabinKarpSearch`: the arithmetic stays in range -/

theorem getD_isChar {s : Str} (h : IsStr s) (i : Nat) : -128 ≤ s.getD i 0 ∧ s.getD i 0 ≤ 255 := by
  by_cases hi : i < s.length
  · have : s.getD i 0 = s[i] := by
      simp [List.getD_eq_getElem?_getD, List.getElem?_eq_getElem hi]
    rw [this]
    exact h _ (List.getElem_mem hi)
  · have : s.getD i 0 = 0 := by
      simp [List.getD_eq_getElem?_getD, List.getElem?_eq_none (Nat.le_of_not_lt hi)]
    rw [this]
    omega

theorem cmod_bounds (a : Int) : -MOD < cmod a MOD ∧ cmod a MOD < MOD := by
  have hpos : (0 : Int) < MOD := by unfold MOD; omega
  unfold cmod
  refine ⟨?_, Int.tmod_lt_of_pos a hpos⟩
  have h1 := Int.tmod_lt_of_pos (-a) hpos
  have h2 : Int.tmod (-a) MOD = -(Int.tmod a MOD) := by
    rw [Int.tmod_def, Int.tmod_def, Int.neg_tdiv]
    ring
  omega

theorem cmod_nonneg {a : Int} (h : 0 ≤ a) : 0 ≤ cmod a MOD :=
  Int.tmod_nonneg MOD h

theorem i64_of_bounds {x : Int} (h1 : -(2 ^ 63) ≤ x) (h2 : x < 2 ^ 63) : i64 x = some x := by
  unfold i64
  rw [if_pos ⟨h1, h2⟩]

theorem createHashLoop_some (str : Str) (hs : IsStr str) :
    ∀ left i hash, i + left ≤ str.length → -MOD < hash → hash < MOD →
      ∃ h, createHashLoop str left i hash = some h ∧ -MOD < h ∧ h < MOD := by
  intro left
  induction left with
  | zero =>
    intro i hash _ h1 h2
    exact ⟨hash, rfl, h1, h2⟩
  | succ left ih =>
    intro i hash hi h1 h2
    have hc := getD_isChar hs i
    have hb := cmod_bounds (hash * PRIME + str.getD i 0)
    unfold MOD at h1 h2
    have e1 : strAt str i = some (str.getD i 0) := strAt_of_le (by omega)
    have e2 : i64 (hash * PRIME) = some (hash * PRIME) :=
      i64_of_bounds (by unfold PRIME; omega) (by unfold PRIME; omega)
    have e3 : i64 (hash * PRIME + str.getD i 0) = some (hash * PRIME + str.getD i 0) :=
      i64_of_bounds (by unfold PRIME; omega) (by unfold PRIME; omega)
    unfold createHashLoop
    simp only [e1, e2, e3, Option.bind_eq_bind, Option.some_bind]
    exact ih (i + 1) _ (by omega) hb.1 hb.2

theorem createHash_some (str : Str) (hs : IsStr str) (m : Nat) (hm : m ≤ str.length) :
    ∃ h, createHash str (m : Int) = some h ∧ -MOD < h ∧ h < MOD := by
  unfold createHash
  rw [Int.toNat_ofNat]
  exact createHashLoop_some str hs m 0 0 (by omega) (by unfold MOD; omega) (by unfold MOD; omega)

theorem powerLoop_some : ∀ left power, 0 ≤ power → power < MOD →
    ∃ pw, powerLoop left power = some pw ∧ 0 ≤ pw ∧ pw < MOD := by
  intro left
  induction left with
  | zero =>
    intro power h1 h2
    exact ⟨power, rfl, h1, h2⟩
  | succ left ih =>
    intro power h1 h2
    have hb := cmod_bounds (power * PRIME)
    have hnn : 0 ≤ cmod (power * PRIME) MOD := cmod_nonneg (by unfold PRIME; omega)
    unfold MOD at h2
    have e1 : i64 (power * PRIME) = some (power * PRIME) :=
      i64_of_bounds (by unfold PRIME; omega) (by unfold PRIME; omega)
    unfold powerLoop
    simp only [e1, Option.bind_eq_bind, Option.some_bind]
    exact ih _ hnn hb.2

/-- One iteration of the main loop of `rabinKarpSearch` is defined and rolls the hash. -/
theorem rkLoop_succ (text : Str) (hs : IsStr text) (n m : Nat) (hn : n = text.length)
    (hn31 : n < 2 ^ 31) (patternHash power : Int) (hp0 : 0 ≤ power) (hp1 : power < MOD)
    (left i : Nat) (textHash : Int) (positions : List Nat) (seen : List Int)
    (hi : i + m ≤ n) (h1 : -MOD < textHash) (h2 : textHash < MOD) :
    rkLoop text n m patternHash power (left + 1) i textHash positions seen =
      rkLoop text n m patternHash power left (i + 1)
        (if i + m < n then roll text m power i textHash else textHash)
        (if patternHash = textHash then positions ++ [i] else positions)
        (seen ++ [textHash]) := by
  have hsz : toSize (i : Int) = i := by
    unfold toSize
    omega
  conv_lhs => unfold rkLoop
  rw [hsz]
  by_cases hlt : i + m < n
  · have hc := getD_isChar hs i
    have hd := getD_isChar hs (i + m)
    have hcp1 : -128 * MOD ≤ text.getD i 0 * power := by nlinarith
    have hcp2 : text.getD i 0 * power ≤ 255 * MOD := by nlinarith
    have hb1 := cmod_bounds (text.getD i 0 * power)
    have hb2 := cmod_bounds (textHash - cmod (text.getD i 0 * power) MOD + MOD)
    have hsz2 : toSize ((i : Int) + (m : Int)) = i + m := by
      unfold toSize
      omega
    unfold MOD at h1 h2 hcp1 hcp2 hb1 hb2
    have e1 : strAt text i = some (text.getD i 0) := strAt_of_le (by omega)
    have e2 : i64 (text.getD i 0 * power) = some (text.getD i 0 * power) :=
      i64_of_bounds (by omega) (by omega)
    have e3 : i64 (textHash - cmod (text.getD i 0 * power) MOD) =
        some (textHash - cmod (text.getD i 0 * power) MOD) :=
      i64_of_bounds (by unfold MOD; omega) (by unfold MOD; omega)
    have e4 : i64 (textHash - cmod (text.getD i 0 * power) MOD + MOD) =
        some (textHash - cmod (text.getD i 0 * power) MOD + MOD) :=
      i64_of_bounds (by unfold MOD; omega) (by unfold MOD; omega)
    have e5 : strAt text (i + m) = some (text.getD (i + m) 0) := strAt_of_le (by omega)
    have e6 : i64 (cmod (textHash - cmod (text.getD i 0 * power) MOD + MOD) MOD * PRIME) =
        some (cmod (textHash - cmod (text.getD i 0 * power) MOD + MOD) MOD * PRIME) :=
      i64_of_bounds (by unfold MOD PRIME; omega) (by unfold MOD PRIME; omega)
    have e7 : i64 (cmod (textHash - cmod (text.getD i 0 * power) MOD + MOD) MOD * PRIME
          + text.getD (i + m) 0) =
        some (cmod (textHash - cmod (text.getD i 0 * power) MOD + MOD) MOD * PRIME
          + text.getD (i + m) 0) :=
      i64_of_bounds (by unfold MOD PRIME; omega) (by unfold MOD PRIME; omega)
    rw [if_pos (by omega), if_pos hlt]
    simp only [e1, e2, e3, e4, hsz2, e5, e6, e7, Option.bind_eq_bind, Option.some_bind, roll]
  · rw [if_neg (by omega), if_neg hlt]

theorem roll_bounds (text : Str) (m : Nat) (power : Int) (i : Nat) (textHash : Int) :
    -MOD < roll text m power i textHash ∧ roll text m power i textHash < MOD :=
  cmod_bounds _

theorem rkLoop_sublist (text : Str) (hs : IsStr text) (n m : Nat) (hn : n = text.length)
    (hn31 : n < 2 ^ 31) (patternHash power : Int) (hp0 : 0 ≤ power) (hp1 : power < MOD) :
    ∀ left i textHash positions seen, i + left = n - m + 1 → m ≤ n →
      -MOD < textHash → textHash < MOD →
      ∃ r hs, rkLoop text n m patternHash power left i textHash positions seen =
          some (positions ++ r, hs) ∧ r.Sublist (List.range' i left) := by
  intro left
  induction left with
  | zero =>
    intro i textHash positions seen _ _ _ _
    exact ⟨[], seen, by simp [rkLoop], by simp⟩
  | succ left ih =>
    intro i textHash positions seen hi hmn h1 h2
    rw [rkLoop_succ text hs n m hn hn31 patternHash power hp0 hp1 left i textHash positions seen
      (by omega) h1 h2]
    have hnext : -MOD < (if i + m < n then roll text m power i textHash else textHash) ∧
        (if i + m < n then roll text m power i textHash else textHash) < MOD := by
      split
      · exact roll_bounds text m power i textHash
      · exact ⟨h1, h2⟩
    obtain ⟨r, hs', hr1, hr2⟩ := ih (i + 1) _
      (if patternHash = textHash then positions ++ [i] else positions) (seen ++ [textHash])
      (by omega) hmn hnext.1 hnext.2
    rw [List.range'_succ]
    by_cases hc : patternHash = textHash
    · rw [if_pos hc] at hr1 ⊢
      refine ⟨i :: r, hs', ?_, hr2.cons₂ i⟩
      rw [hr1]
      simp
    · rw [if_neg hc] at hr1 ⊢
      exact ⟨r, hs', hr1, hr2.cons i⟩

theorem rabinKarpSearch_sublist (text pattern : Str) (ht : IsStr text) (hp : IsStr pattern)
    (hmn : pattern.length ≤ text.length) (hn : text.length < 2 ^ 31) :
    ∃ r, rabinKarpSearch text pattern = some r ∧
      r.Sublist (List.range (text.length - pattern.length + 1)) := by
  obtain ⟨ph, hph, _, _⟩ := createHash_some pattern hp pattern.length (le_refl _)
  obtain ⟨th, hth, hth1, hth2⟩ := createHash_some text ht pattern.length hmn
  obtain ⟨pw, hpw, hpw1, hpw2⟩ := powerLoop_some ((pattern.length : Int) - 1).toNat 1
    (by omega) (by unfold MOD; omega)
  obtain ⟨r, hs', hr1, hr2⟩ := rkLoop_sublist text ht text.length pattern.length rfl hn ph pw
    hpw1 hpw2 (text.length - pattern.length + 1) 0 th [] [] (by omega) hmn hth1 hth2
  refine ⟨r, ?_, by rw [List.range_eq_range']; exact hr2⟩
  have hcnt : ((text.length : Int) - (pattern.length : Int) + 1).toNat =
      text.length - pattern.length + 1 := by omega
  unfold rabinKarpSearch rabinKarpRun
  simp only []
  rw [toInt_of_lt hn, toInt_of_lt (by omega), if_neg (by omega)]
  simp only [hph, hth, hpw, Option.bind_eq_bind, Option.some_bind, hcnt, hr1, Option.map_some',
    List.nil_append]

theorem rabinKarpSearch_oversized (text pattern : Str)
    (hmn : text.length < pattern.length) (hm : pattern.length < 2 ^ 31) :
    rabinKarpSearch text pattern = some [] := by
  unfold rabinKarpSearch rabinKarpRun
  simp only []
  rw [toInt_of_lt hm, toInt_of_lt (by omega), if_pos (by omega)]
  rfl

/-! ## Proofs for `rabinKarpSearch`: the hashes of strings with non-negative codes -/

theorem isStr_of_isNonneg {s : Str} (h : IsNonneg s) : IsStr s := by
  intro c hc
  have := h c hc
  omega

theorem getD_nonneg {s : Str} (h : IsNonneg s) (i : Nat) : 0 ≤ s.getD i 0 := by
  by_cases hi : i < s.length
  · have : s.getD i 0 = s[i] := by
      simp [List.getD_eq_getElem?_getD, List.getElem?_eq_getElem hi]
    rw [this]
    exact (h _ (List.getElem_mem hi)).1
  · have : s.getD i 0 = 0 := by
      simp [List.getD_eq_getElem?_getD, List.getElem?_eq_none (Nat.le_of_not_lt hi)]
    rw [this]

theorem cmod_of_nonneg {a : Int} (h : 0 ≤ a) : cmod a MOD = a % MOD :=
  Int.tmod_eq_emod h (by unfold MOD; omega)

theorem windowValue_succ (s : Str) : ∀ L i,
    windowValue s i (L + 1) = windowValue s i L * PRIME + s.getD (i + L) 0 := by
  intro L
  induction L with
  | zero =>
    intro i
    simp [windowValue]
  | succ L ih =>
    intro i
    have e1 : windowValue s i (L + 1 + 1) =
        s.getD i 0 * PRIME ^ (L + 1) + windowValue s (i + 1) (L + 1) := rfl
    have e2 : windowValue s i (L + 1) = s.getD i 0 * PRIME ^ L + windowValue s (i + 1) L := rfl
    have e3 : i + 1 + L = i + (L + 1) := by omega
    rw [e1, ih (i + 1), e2, e3]
    ring

theorem windowValue_congr (a b : Str) : ∀ L i k,
    (∀ t, t < L → a.getD (i + t) 0 = b.getD (k + t) 0) →
      windowValue a i L = windowValue b k L := by
  intro L
  induction L with
  | zero =>
    intro i k _
    rfl
  | succ L ih =>
    intro i k h
    have e1 : windowValue a i (L + 1) = a.getD i 0 * PRIME ^ L + windowValue a (i + 1) L := rfl
    have e2 : windowValue b k (L + 1) = b.getD k 0 * PRIME ^ L + windowValue b (k + 1) L := rfl
    have h0 := h 0 (by omega)
    rw [Nat.add_zero, Nat.add_zero] at h0
    rw [e1, e2, h0, ih (i + 1) (k + 1) (fun t ht => by
      have := h (t + 1) (by omega)
      rw [show i + 1 + t = i + (t + 1) by omega, show k + 1 + t = k + (t + 1) by omega]
      exact this)]

theorem createHashLoop_nonneg (str : Str) (hs : IsNonneg str) :
    ∀ left i hash, i + left ≤ str.length → 0 ≤ hash → hash < MOD →
      createHashLoop str left i hash =
        some ((hash * PRIME ^ left + windowValue str i left) % MOD) := by
  intro left
  induction left with
  | zero =>
    intro i hash _ h1 h2
    have : (hash * PRIME ^ 0 + windowValue str i 0) % MOD = hash := by
      have e : windowValue str i 0 = 0 := rfl
      rw [e, pow_zero, mul_one, add_zero]
      exact Int.emod_eq_of_lt h1 h2
    rw [this]
    rfl
  | succ left ih =>
    intro i hash hi h1 h2
    have hc := getD_isChar (isStr_of_isNonneg hs) i
    have hc0 := getD_nonneg hs i
    have hpos : (0 : Int) < MOD := by unfold MOD; omega
    have hnn : 0 ≤ hash * PRIME + str.getD i 0 := by unfold PRIME; omega
    have hb1 : 0 ≤ (hash * PRIME + str.getD i 0) % MOD := Int.emod_nonneg _ (by omega)
    have hb2 : (hash * PRIME + str.getD i 0) % MOD < MOD := Int.emod_lt_of_pos _ hpos
    have e1 : strAt str i = some (str.getD i 0) := strAt_of_le (by omega)
    have e2 : i64 (hash * PRIME) = some (hash * PRIME) :=
      i64_of_bounds (by unfold PRIME; omega) (by unfold MOD at h2; unfold PRIME; omega)
    have e3 : i64 (hash * PRIME + str.getD i 0) = some (hash * PRIME + str.getD i 0) :=
      i64_of_bounds (by unfold PRIME; omega) (by unfold MOD at h2; unfold PRIME; omega)
    have hstep : createHashLoop str (left + 1) i hash =
        createHashLoop str left (i + 1) ((hash * PRIME + str.getD i 0) % MOD) := by
      conv_lhs => unfold createHashLoop
      simp only [e1, e2, e3, Option.bind_eq_bind, Option.some_bind, cmod_of_nonneg hnn]
    rw [hstep, ih (i + 1) _ (by omega) hb1 hb2]
    have e4 : windowValue str i (left + 1) =
        str.getD i 0 * PRIME ^ left + windowValue str (i + 1) left := rfl
    have hcong : ((hash * PRIME + str.getD i 0) % MOD) * PRIME ^ left +
          windowValue str (i + 1) left ≡
        (hash * PRIME + str.getD i 0) * PRIME ^ left + windowValue str (i + 1) left [ZMOD MOD] :=
      ((Int.mod_modEq _ _).mul_right _).add_right _
    have hring : (hash * PRIME + str.getD i 0) * PRIME ^ left + windowValue str (i + 1) left =
        hash * PRIME ^ (left + 1) + windowValue str i (left + 1) := by
      rw [e4]
      ring
    rw [← hring]
    exact congrArg some hcong.eq

/-- For a string with non-negative codes, `createHash` is the value of the window modulo
`MOD`. -/
theorem createHash_nonneg (str : Str) (hs : IsNonneg str) (L : Nat) (hL : L ≤ str.length) :
    createHash str (L : Int) = some (windowValue str 0 L % MOD) := by
  unfold createHash
  rw [Int.toNat_ofNat, createHashLoop_nonneg str hs L 0 0 (by omega) (le_refl 0)
    (by unfold MOD; omega), zero_mul, zero_add]

theorem isNonneg_window {text : Str} (h : IsNonneg text) (i m : Nat) :
    IsNonneg ((text.drop i).take m) := by
  intro c hc
  exact h c (List.mem_of_mem_drop (List.mem_of_mem_take hc))

theorem getD_window {text : Str} {i m t : Nat} (ht : t < m) :
    ((text.drop i).take m).getD t 0 = text.getD (i + t) 0 := by
  simp only [List.getD_eq_getElem?_getD, List.getElem?_take, List.getElem?_drop, if_pos ht]

/-- The hash that `createHash` computes directly on the window `text[i..i+m)`. -/
theorem createHash_window (text : Str) (hs : IsNonneg text) (i m : Nat)
    (h : i + m ≤ text.length) :
    createHash ((text.drop i).take m) (m : Int) = some (windowValue text i m % MOD) := by
  have hlen : ((text.drop i).take m).length = m := by
    rw [List.length_take, List.length_drop]
    omega
  rw [createHash_nonneg _ (isNonneg_window hs i m) m (by omega),
    windowValue_congr ((text.drop i).take m) text m 0 i (fun t ht => by
      rw [Nat.zero_add]
      exact getD_window ht)]

theorem powerLoop_nonneg : ∀ left power, 0 ≤ power → power < MOD →
    powerLoop left power = some (power * PRIME ^ left % MOD) := by
  intro left
  induction left with
  | zero =>
    intro power h1 h2
    rw [pow_zero, mul_one, Int.emod_eq_of_lt h1 h2]
    rfl
  | succ left ih =>
    intro power h1 h2
    have hpos : (0 : Int) < MOD := by unfold MOD; omega
    have hnn : 0 ≤ power * PRIME := by unfold PRIME; omega
    have e1 : i64 (power * PRIME) = some (power * PRIME) :=
      i64_of_bounds (by unfold PRIME; omega) (by unfold MOD at h2; unfold PRIME; omega)
    have hstep : powerLoop (left + 1) power = powerLoop left (power * PRIME % MOD) := by
      conv_lhs => unfold powerLoop
      simp only [e1, Option.bind_eq_bind, Option.some_bind, cmod_of_nonneg hnn]
    rw [hstep, ih _ (Int.emod_nonneg _ (by omega)) (Int.emod_lt_of_pos _ hpos)]
    have hcong : power * PRIME % MOD * PRIME ^ left ≡ power * PRIME * PRIME ^ left [ZMOD MOD] :=
      (Int.mod_modEq _ _).mul_right _
    have hring : power * PRIME * PRIME ^ left = power * PRIME ^ (left + 1) := by ring
    rw [← hring]
    exact congrArg some hcong.eq

/-- With non-negative codes, rolling the hash of the window at `i` gives the hash of the
window at `i + 1`. -/
theorem roll_nonneg (text : Str) (hs : IsNonneg text) (L i : Nat) :
    roll text (L + 1) (1 * PRIME ^ L % MOD) i (windowValue text i (L + 1) % MOD) =
      windowValue text (i + 1) (L + 1) % MOD := by
  have hpos : (0 : Int) < MOD := by unfold MOD; omega
  have hc0 := getD_nonneg hs i
  have hd0 := getD_nonneg hs (i + (L + 1))
  have hp0 : 0 ≤ 1 * PRIME ^ L % MOD := Int.emod_nonneg _ (by omega)
  have hh0 : 0 ≤ windowValue text i (L + 1) % MOD := Int.emod_nonneg _ (by omega)
  have hh1 : windowValue text i (L + 1) % MOD < MOD := Int.emod_lt_of_pos _ hpos
  have hA0 : 0 ≤ text.getD i 0 * (1 * PRIME ^ L % MOD) := Int.mul_nonneg hc0 hp0
  have hA1 : 0 ≤ text.getD i 0 * (1 * PRIME ^ L % MOD) % MOD := Int.emod_nonneg _ (by omega)
  have hA2 : text.getD i 0 * (1 * PRIME ^ L % MOD) % MOD < MOD := Int.emod_lt_of_pos _ hpos
  have hB0 : 0 ≤ windowValue text i (L + 1) % MOD -
      text.getD i 0 * (1 * PRIME ^ L % MOD) % MOD + MOD := by omega
  have hB1 : 0 ≤ (windowValue text i (L + 1) % MOD -
      text.getD i 0 * (1 * PRIME ^ L % MOD) % MOD + MOD) % MOD := Int.emod_nonneg _ (by omega)
  have hC0 : 0 ≤ (windowValue text i (L + 1) % MOD -
      text.getD i 0 * (1 * PRIME ^ L % MOD) % MOD + MOD) % MOD * PRIME +
        text.getD (i + (L + 1)) 0 :=
    Int.add_nonneg (Int.mul_nonneg hB1 (by unfold PRIME; omega)) hd0
  unfold roll
  rw [cmod_of_nonneg hA0, cmod_of_nonneg hB0, cmod_of_nonneg hC0]
  have e1 : windowValue text i (L + 1) =
      text.getD i 0 * PRIME ^ L + windowValue text (i + 1) L := rfl
  have e2 : windowValue text (i + 1) (L + 1) =
      windowValue text (i + 1) L * PRIME + text.getD (i + 1 + L) 0 := windowValue_succ text L (i + 1)
  have e3 : i + 1 + L = i + (L + 1) := by omega
  have c1 : text.getD i 0 * (1 * PRIME ^ L % MOD) % MOD ≡ text.getD i 0 * PRIME ^ L [ZMOD MOD] := by
    have : 1 * PRIME ^ L % MOD ≡ PRIME ^ L [ZMOD MOD] := by
      rw [one_mul]
      exact Int.mod_modEq _ _
    exact (Int.mod_modEq _ _).trans (this.mul_left _)
  have c2 : windowValue text i (L + 1) % MOD ≡
      text.getD i 0 * PRIME ^ L + windowValue text (i + 1) L [ZMOD MOD] := by
    rw [← e1]
    exact Int.mod_modEq _ _
  have c3 : windowValue text i (L + 1) % MOD -
      text.getD i 0 * (1 * PRIME ^ L % MOD) % MOD + MOD ≡ windowValue text (i + 1) L [ZMOD MOD] := by
    have hz : MOD ≡ 0 [ZMOD MOD] := Int.modEq_zero_iff_dvd.mpr (dvd_refl MOD)
    have h := (c2.sub c1).add hz
    have hr : text.getD i 0 * PRIME ^ L + windowValue text (i + 1) L -
        text.getD i 0 * PRIME ^ L + 0 = windowValue text (i + 1) L := by ring
    rw [hr] at h
    exact h
  have c4 : (windowValue text i (L + 1) % MOD -
      text.getD i 0 * (1 * PRIME ^ L % MOD) % MOD + MOD) % MOD * PRIME +
        text.getD (i + (L + 1)) 0 ≡ windowValue text (i + 1) (L + 1) [ZMOD MOD] := by
    rw [e2, e3]
    exact (((Int.mod_modEq _ _).trans c3).mul_right _).add_right _
  exact c4.eq

theorem rkLoop_nonneg (text : Str) (hs : IsNonneg text) (n m L : Nat) (hn : n = text.length)
    (hn31 : n < 2 ^ 31) (hm : m = L + 1) (hmn : m ≤ n) (patternHash : Int) :
    ∀ left i textHash positions seen, i + left = n - m + 1 →
      (0 < left → textHash = windowValue text i m % MOD) →
      rkLoop text n m patternHash (1 * PRIME ^ L % MOD) left i textHash positions seen =
        some (positions ++ (List.range' i left).filter
            (fun j => decide (patternHash = windowValue text j m % MOD)),
          seen ++ (List.range' i left).map (fun j => windowValue text j m % MOD)) := by
  have hpos : (0 : Int) < MOD := by unfold MOD; omega
  intro left
  induction left with
  | zero =>
    intro i textHash positions seen _ _
    simp [rkLoop]
  | succ left ih =>
    intro i textHash positions seen hi hth
    have hth' := hth (by omega)
    have hb1 : -MOD < textHash := by
      have : 0 ≤ windowValue text i m % MOD := Int.emod_nonneg _ (by omega)
      omega
    have hb2 : textHash < MOD := by
      rw [hth']
      exact Int.emod_lt_of_pos _ hpos
    rw [rkLoop_succ text (isStr_of_isNonneg hs) n m hn hn31 patternHash _
      (Int.emod_nonneg _ (by omega)) (Int.emod_lt_of_pos _ hpos) left i textHash positions seen
      (by omega) hb1 hb2]
    rw [ih (i + 1) _ _ _ (by omega) (by
      intro hleft
      rw [if_pos (by omega), hth', hm]
      exact roll_nonneg text hs L i)]
    rw [List.range'_succ, List.map_cons, ← hth']
    by_cases hc : patternHash = textHash
    · rw [if_pos hc, List.filter_cons_of_pos (by
        simp only [decide_eq_true_eq]
        rw [← hth']
        exact hc)]
      simp
    · rw [if_neg hc, List.filter_cons_of_neg (by
        simp only [decide_eq_true_eq]
        rw [← hth']
        exact hc)]
      simp

/-- With non-negative codes and `1 <= m <= n`, `rabinKarpSearch` records exactly the offsets
whose window has the hash of the pattern, and `textHash` holds the hash of the current window
at each iteration. -/
theorem rabinKarpRun_nonneg (text pattern : Str) (ht : IsNonneg text) (hp : IsNonneg pattern)
    (hm0 : 0 < pattern.length) (hmn : pattern.length ≤ text.length)
    (hn : text.length < 2 ^ 31) :
    rabinKarpRun text pattern =
      some ((List.range (text.length - pattern.length + 1)).filter
          (fun j => decide (windowValue pattern 0 pattern.length % MOD =
            windowValue text j pattern.length % MOD)),
        (List.range (text.length - pattern.length + 1)).map
          (fun j => windowValue text j pattern.length % MOD)) := by
  obtain ⟨L, hL⟩ : ∃ L, pattern.length = L + 1 := ⟨pattern.length - 1, by omega⟩
  have hph := createHash_nonneg pattern hp pattern.length (le_refl _)
  have hth := createHash_nonneg text ht pattern.length hmn
  have hpw : powerLoop ((pattern.length : Int) - 1).toNat 1 = some (1 * PRIME ^ L % MOD) := by
    have : ((pattern.length : Int) - 1).toNat = L := by omega
    rw [this]
    exact powerLoop_nonneg L 1 (by omega) (by unfold MOD; omega)
  have hcnt : ((text.length : Int) - (pattern.length : Int) + 1).toNat =
      text.length - pattern.length + 1 := by omega
  have hloop := rkLoop_nonneg text ht text.length pattern.length L rfl hn hL hmn
    (windowValue pattern 0 pattern.length % MOD) (text.length - pattern.length + 1) 0
    (windowValue text 0 pattern.length % MOD) [] [] (by omega) (fun _ => rfl)
  unfold rabinKarpRun
  simp only []
  rw [toInt_of_lt hn, toInt_of_lt (by omega), if_neg (by omega)]
  simp only [hph, hth, hpw, Option.bind_eq_bind, Option.some_bind, hcnt, hloop, List.nil_append,
    List.range_eq_range']

/-! ## The four searches on a repeated character -/

theorem getD_replicate (c : Int) {n i : Nat} (h : i < n) : (List.replicate n c).getD i 0 = c := by
  simp [List.getD_eq_getElem?_getD, List.getElem?_replicate, h]

theorem allOccurrences_replicate (c : Int) (n m : Nat) (hmn : m ≤ n) :
    allOccurrences (List.replicate n c) (List.replicate m c) = List.range (n - m + 1) := by
  unfold allOccurrences
  rw [List.length_replicate, List.length_replicate,
    show n + 1 - m = n - m + 1 by omega, List.filter_eq_self]
  intro i hi
  rw [List.mem_range] at hi
  rw [decide_eq_true_eq]
  unfold Occurs
  rw [List.length_replicate, List.length_replicate]
  refine ⟨by omega, ?_⟩
  intro j hj
  rw [getD_replicate c (by omega), getD_replicate c hj]

theorem isNonneg_replicate {c : Int} (h0 : 0 ≤ c) (h1 : c ≤ 255) (n : Nat) :
    IsNonneg (List.replicate n c) := by
  intro x hx
  rw [List.eq_of_mem_replicate hx]
  exact ⟨h0, h1⟩

/-- On the text `c^n` and the pattern `c^m` with `1 <= m <= n`, the three exact searches
return `[0, ..., n-m]` for every character `c`, and `rabinKarpSearch` does so for every
character with a non-negative code. -/
theorem searches_on_repeated_char (c : Int) (n m : Nat) (hm0 : 1 ≤ m) (hmn : m ≤ n)
    (hn : n < 2 ^ 31) :
    naiveSearch (List.replicate n c) (List.replicate m c) = some (List.range (n - m + 1)) ∧
    stdStringFind (List.replicate n c) (List.replicate m c) = some (List.range (n - m + 1)) ∧
    kmpSearch (List.replicate n c) (List.replicate m c) = some (List.range (n - m + 1)) ∧
    (0 ≤ c → c ≤ 255 →
      rabinKarpSearch (List.replicate n c) (List.replicate m c) =
        some (List.range (n - m + 1))) := by
  have hlen1 : (List.replicate n c).length = n := List.length_replicate n c
  have hlen2 : (List.replicate m c).length = m := List.length_replicate m c
  refine ⟨?_, ?_, ?_, ?_⟩
  · rw [naiveSearch_eq _ _ (by omega) (by omega), allOccurrences_replicate c n m hmn]
  · rw [stdStringFind_eq _ _ (by omega), allOccurrences_replicate c n m hmn]
  · rw [kmpSearch_eq _ _ (by omega) (by omega) (by omega), allOccurrences_replicate c n m hmn]
  · intro h0 h1
    unfold rabinKarpSearch
    rw [rabinKarpRun_nonneg _ _ (isNonneg_replicate h0 h1 n) (isNonneg_replicate h0 h1 m)
      (by omega) (by omega) (by omega), Option.map_some', hlen1, hlen2]
    congr 1
    rw [List.filter_eq_self]
    intro j hj
    rw [List.mem_range] at hj
    rw [decide_eq_true_eq,
      windowValue_congr (List.replicate m c) (List.replicate n c) m 0 j (fun t ht => by
        rw [getD_replicate c (by omega), getD_replicate c (by omega)])]

/-- With non-negative codes and `1 <= m <= n`, the value of `textHash` at iteration `i` is the
hash that `createHash` computes directly on the window `text[i..i+m)`. -/
theorem rolled_hash_eq_direct_of_nonneg (text pattern : Str) (ht : IsNonneg text)
    (hp : IsNonneg pattern) (hm0 : 0 < pattern.length) (hmn : pattern.length ≤ text.length)
    (hn : text.length < 2 ^ 31) :
    ∃ seen, rabinKarpHashes text pattern = some seen ∧
      seen.length = text.length - pattern.length + 1 ∧
      ∀ i, i ≤ text.length - pattern.length →
        (seen[i]?).isSome = true ∧
          seen[i]? = createHash ((text.drop i).take pattern.length) (pattern.length : Int) := by
  refine ⟨_, by unfold rabinKarpHashes; rw [rabinKarpRun_nonneg text pattern ht hp hm0 hmn hn,
    Option.map_some'], by simp, ?_⟩
  intro i hi
  have hlt : i < text.length - pattern.length + 1 := by omega
  rw [createHash_window text ht i pattern.length (by omega), List.getElem?_map,
    List.getElem?_range hlt]
  exact ⟨rfl, rfl⟩

/-! ## The results -/

/-- C1, evaluated on the code: `rabinKarpSearch` and `naiveSearch` disagree. The five-character
text `.zpfq` has the same hash as the pattern `Harry`, and since `rabinKarpSearch` compares the
hashes only, it reports an occurrence at offset 0, which `naiveSearch` rightly does not. -/
theorem rabinKarpSearch_false_positive :
    rabinKarpSearch s_zpfq s_Harry = some [0] ∧ naiveSearch s_zpfq s_Harry = some [] := by
  decide

/-- With both lengths below `2^31`: for every text and every non-empty pattern, `kmpSearch` returns
the strictly increasing list of exactly the offsets `i` with `i + m <= n` at which
`text[i..i+m)` equals the pattern, overlapping occurrences included; it equals the result of
`naiveSearch` whenever `m <= n`. -/
theorem kmpSearch_correct (text pattern : Str) (hm0 : 0 < pattern.length)
    (hn : text.length < 2 ^ 31) (hm : pattern.length < 2 ^ 31) :
    ∃ r, kmpSearch text pattern = some r ∧ r.Sorted (· < ·) ∧
      (∀ i, i ∈ r ↔
        i + pattern.length ≤ text.length ∧ (text.drop i).take pattern.length = pattern) ∧
      (pattern.length ≤ text.length → naiveSearch text pattern = some r) := by
  refine ⟨allOccurrences text pattern, kmpSearch_eq text pattern hm0 hn hm,
    sorted_allOccurrences text pattern, ?_, ?_⟩
  · intro i
    rw [mem_allOccurrences, occurs_iff_slice]
  · intro h
    exact naiveSearch_eq text pattern h (by omega)

/-- The correctness of `kmpSearch` at the text `abababa` and the pattern `aba`, whose
occurrences overlap. -/
theorem kmpSearch_correct_witness :
    kmpSearch s_abababa s_aba = some [0, 2, 4] ∧
    ∃ r, kmpSearch s_abababa s_aba = some r ∧ r.Sorted (· < ·) ∧
      (∀ i, i ∈ r ↔
        i + s_aba.length ≤ s_abababa.length ∧ (s_abababa.drop i).take s_aba.length = s_aba) ∧
      (s_aba.length ≤ s_abababa.length → naiveSearch s_abababa s_aba = some r) :=
  ⟨by decide, kmpSearch_correct s_abababa s_aba (by decide) (by decide) (by decide)⟩

/-- C3: for every text and pattern with `m <= n`, `naiveSearch` returns the increasing list of
exactly the offsets `i` in `0..n-m` such that `text[i + j] = pattern[j]` for every `j < m`: an
offset is recorded if and only if all `m` comparisons succeed. -/
theorem naiveSearch_correct (text pattern : Str) (hmn : pattern.length ≤ text.length)
    (hn : text.length + 1 < 2 ^ 64) :
    ∃ r, naiveSearch text pattern = some r ∧ r.Sorted (· < ·) ∧
      ∀ i, i ∈ r ↔
        i ≤ text.length - pattern.length ∧ ∀ j, j < pattern.length → text[i + j]? = pattern[j]? := by
  refine ⟨allOccurrences text pattern, naiveSearch_eq text pattern hmn hn,
    sorted_allOccurrences text pattern, ?_⟩
  intro i
  rw [mem_allOccurrences]
  unfold Occurs
  constructor
  · intro h
    exact ⟨by have := h.1; omega,
      fun j hj => (getD_eq_iff (by have := h.1; omega) hj).mp (h.2 j hj)⟩
  · intro h
    exact ⟨by omega, fun j hj => (getD_eq_iff (by omega) hj).mpr (h.2 j hj)⟩

/-- C3 at the text `aaaa` and the pattern `aa`. -/
theorem naiveSearch_correct_witness :
    naiveSearch s_aaaa s_aa = some [0, 1, 2] ∧
    ∃ r, naiveSearch s_aaaa s_aa = some r ∧ r.Sorted (· < ·) ∧
      ∀ i, i ∈ r ↔
        i ≤ s_aaaa.length - s_aa.length ∧ ∀ j, j < s_aa.length → s_aaaa[i + j]? = s_aa[j]? :=
  ⟨by decide, naiveSearch_correct s_aaaa s_aa (by decide) (by decide)⟩

/-- C4: for every text and pattern, the loop of `stdStringFind` ends (any fuel of at least
`n + 2` steps is enough) and `stdStringFind` returns the strictly increasing list of exactly
the offsets at which the pattern occurs in the text, overlapping occurrences included; it
equals the result of `naiveSearch` whenever `m <= n`. -/
theorem stdStringFind_correct (text pattern : Str) (hn : text.length + 1 < 2 ^ 64) :
    ∃ r, (∀ fuel, text.length + 2 ≤ fuel →
        stdFindLoop text pattern fuel (find text pattern 0) [] = some r) ∧
      stdStringFind text pattern = some r ∧ r.Sorted (· < ·) ∧
      (∀ i, i ∈ r ↔
        i + pattern.length ≤ text.length ∧ (text.drop i).take pattern.length = pattern) ∧
      (pattern.length ≤ text.length → naiveSearch text pattern = some r) := by
  refine ⟨allOccurrences text pattern, ?_, stdStringFind_eq text pattern hn,
    sorted_allOccurrences text pattern, ?_, ?_⟩
  · intro fuel hfuel
    rw [stdFindLoop_spec text pattern hn fuel 0 [] (by omega) (by omega), allOccurrences_eq_range]
    simp
  · intro i
    rw [mem_allOccurrences, occurs_iff_slice]
  · intro h
    exact naiveSearch_eq text pattern h hn

/-- C4 at the text `aaaa` and the pattern `aa`. -/
theorem stdStringFind_correct_witness :
    stdStringFind s_aaaa s_aa = some [0, 1, 2] ∧
    ∃ r, (∀ fuel, s_aaaa.length + 2 ≤ fuel →
        stdFindLoop s_aaaa s_aa fuel (find s_aaaa s_aa 0) [] = some r) ∧
      stdStringFind s_aaaa s_aa = some r ∧ r.Sorted (· < ·) ∧
      (∀ i, i ∈ r ↔
        i + s_aa.length ≤ s_aaaa.length ∧ (s_aaaa.drop i).take s_aa.length = s_aa) ∧
      (s_aa.length ≤ s_aaaa.length → naiveSearch s_aaaa s_aa = some r) :=
  ⟨by decide, stdStringFind_correct s_aaaa s_aa (by decide)⟩

/-- For every pattern of a length `m` below `2^31`, `computePrefixFunction` returns a table
of length `m` whose entry `i`, for every `i < m`, is the length of the longest proper prefix of
`pattern[0..i]` that is also a suffix of `pattern[0..i]`. -/
theorem computePrefixFunction_correct (pattern : Str) (hm : pattern.length < 2 ^ 31) :
    ∃ tbl, computePrefixFunction pattern = some tbl ∧ tbl.length = pattern.length ∧
      ∀ i, i < pattern.length → ∃ k, tbl[i]? = some k ∧
        (∃ u, IsBorder (pattern.take (i + 1)) u ∧ u.length = k) ∧
        ∀ u, IsBorder (pattern.take (i + 1)) u → u.length ≤ k := by
  obtain ⟨tbl, h1, h2, h3⟩ := computePrefixFunction_spec pattern hm
  refine ⟨tbl, h1, h2, ?_⟩
  intro i hi
  obtain ⟨t1, t2, t3⟩ := h3 (i + 1) (by omega) (by omega)
  have hidx : i + 1 - 1 = i := by omega
  rw [hidx] at t1 t2 t3
  have hget : tbl[i]? = some (tbl.getD i 0) := by
    rw [List.getD_eq_getElem?_getD, List.getElem?_eq_getElem (by omega)]
    rfl
  refine ⟨tbl.getD i 0, hget, ⟨pattern.take (tbl.getD i 0), border_of_suf (by omega) t1 t2, ?_⟩, ?_⟩
  · rw [List.length_take]
    omega
  · intro u hu
    obtain ⟨hu1, hu2⟩ := suf_of_border (by omega) hu
    exact t3 u.length hu1 hu2

/-- The correctness of `computePrefixFunction` at the pattern `ababaca`, whose table is
`[0,0,1,2,3,0,1]`. -/
theorem computePrefixFunction_correct_witness :
    computePrefixFunction s_ababaca = some [0, 0, 1, 2, 3, 0, 1] ∧
    ∃ tbl, computePrefixFunction s_ababaca = some tbl ∧ tbl.length = s_ababaca.length ∧
      ∀ i, i < s_ababaca.length → ∃ k, tbl[i]? = some k ∧
        (∃ u, IsBorder (s_ababaca.take (i + 1)) u ∧ u.length = k) ∧
        ∀ u, IsBorder (s_ababaca.take (i + 1)) u → u.length ≤ k :=
  ⟨by decide, computePrefixFunction_correct s_ababaca (by decide)⟩

/-- C6, evaluated on the code: for the text `aé` in UTF-8 (three bytes, the last two being
negative `char` codes) and the two-byte pattern `é`, `textHash` holds `24868` at iteration 0 and
`999984243` at iteration 1, while `createHash` on the window `text[1..3)` of iteration 1 is
`-15764`: the rolled hash and the directly computed hash differ. -/
theorem rolling_hash_differs_on_negative_char :
    rabinKarpHashes s_a_eacute s_eacute = some [24868, 999984243] ∧
      createHash (s_a_eacute.drop 1) 2 = some (-15764) := by
  decide

/-- C7, evaluated on the code: for the text `ab` and the longer pattern `abc`, `naiveSearch`
has no defined result. The bound `n - m` wraps to `2^64 - 1`, the loop goes on past the last
offset, and at `i = 3` it reads `text[3]`, beyond the end of the text. -/
theorem naiveSearch_oversized_undefined : naiveSearch s_ab s_abc = none := by
  decide

/-- For every text and every longer pattern of a length below `2^31`, each of
`stdStringFind`, `kmpSearch` and `rabinKarpSearch` returns the empty sequence. -/
theorem oversized_pattern_empty (text pattern : Str) (hmn : text.length < pattern.length)
    (hm : pattern.length < 2 ^ 31) :
    stdStringFind text pattern = some [] ∧ kmpSearch text pattern = some [] ∧
      rabinKarpSearch text pattern = some [] := by
  have hocc : allOccurrences text pattern = [] := by
    unfold allOccurrences
    have : text.length + 1 - pattern.length = 0 := by omega
    rw [this]
    rfl
  refine ⟨?_, ?_, rabinKarpSearch_oversized text pattern hmn hm⟩
  · rw [stdStringFind_eq text pattern (by omega), hocc]
  · rw [kmpSearch_eq text pattern (by omega) (by omega) hm, hocc]

/-- The three searches at the text `ab` and the longer pattern `abc`. -/
theorem oversized_pattern_empty_witness :
    s_ab.length < s_abc.length ∧
    stdStringFind s_ab s_abc = some [] ∧ kmpSearch s_ab s_abc = some [] ∧
      rabinKarpSearch s_ab s_abc = some [] :=
  ⟨by decide, oversized_pattern_empty s_ab s_abc (by decide) (by decide)⟩

/-- C9, evaluated on the code: for the character `\xE9` (the negative `char` code `-23`),
`n = 3` and `m = 2`, the three exact algorithms return `[0, 1]` but `rabinKarpSearch` returns
`[0]` only; for the character `a`, `n = 4` and `m = 2` it does return `[0, 1, 2]`. -/
theorem rabinKarpSearch_misses_overlap :
    rabinKarpSearch (List.replicate 3 (-23)) (List.replicate 2 (-23)) = some [0] ∧
    naiveSearch (List.replicate 3 (-23)) (List.replicate 2 (-23)) = some [0, 1] ∧
    stdStringFind (List.replicate 3 (-23)) (List.replicate 2 (-23)) = some [0, 1] ∧
    kmpSearch (List.replicate 3 (-23)) (List.replicate 2 (-23)) = some [0, 1] ∧
    rabinKarpSearch (List.replicate 4 97) (List.replicate 2 97) = some [0, 1, 2] := by
  decide

/-- For every text and pattern with `1 <= m <= n` and `n` below `2^31`, the sequence
returned by each of `naiveSearch`, `stdStringFind`, `kmpSearch` and `rabinKarpSearch` is
strictly increasing and each of its offsets `p` satisfies `p <= n - m`. -/
theorem positions_increasing_in_range (text pattern : Str) (ht : IsStr text)
    (hp : IsStr pattern) (hm0 : 1 ≤ pattern.length) (hmn : pattern.length ≤ text.length)
    (hn : text.length < 2 ^ 31) :
    (∃ r, naiveSearch text pattern = some r ∧ r.Sorted (· < ·) ∧
      ∀ p ∈ r, p ≤ text.length - pattern.length) ∧
    (∃ r, stdStringFind text pattern = some r ∧ r.Sorted (· < ·) ∧
      ∀ p ∈ r, p ≤ text.length - pattern.length) ∧
    (∃ r, kmpSearch text pattern = some r ∧ r.Sorted (· < ·) ∧
      ∀ p ∈ r, p ≤ text.length - pattern.length) ∧
    (∃ r, rabinKarpSearch text pattern = some r ∧ r.Sorted (· < ·) ∧
      ∀ p ∈ r, p ≤ text.length - pattern.length) := by
  have hin : ∀ p ∈ allOccurrences text pattern, p ≤ text.length - pattern.length := by
    intro p hp
    have := (mem_allOccurrences.mp hp).1
    omega
  refine ⟨⟨_, naiveSearch_eq text pattern hmn (by omega), sorted_allOccurrences _ _, hin⟩,
    ⟨_, stdStringFind_eq text pattern (by omega), sorted_allOccurrences _ _, hin⟩,
    ⟨_, kmpSearch_eq text pattern (by omega) hn (by omega), sorted_allOccurrences _ _, hin⟩, ?_⟩
  obtain ⟨r, hr1, hr2⟩ := rabinKarpSearch_sublist text pattern ht hp hmn hn
  refine ⟨r, hr1, List.Pairwise.sublist hr2 (List.sorted_lt_range _), ?_⟩
  intro p hp
  have := List.mem_range.mp (hr2.subset hp)
  omega

/-- The four sequences at the text `abababa` and the pattern `aba`. -/
theorem positions_increasing_in_range_witness :
    (∃ r, naiveSearch s_abababa s_aba = some r ∧ r.Sorted (· < ·) ∧
      ∀ p ∈ r, p ≤ s_abababa.length - s_aba.length) ∧
    (∃ r, stdStringFind s_abababa s_aba = some r ∧ r.Sorted (· < ·) ∧
      ∀ p ∈ r, p ≤ s_abababa.length - s_aba.length) ∧
    (∃ r, kmpSearch s_abababa s_aba = some r ∧ r.Sorted (· < ·) ∧
      ∀ p ∈ r, p ≤ s_abababa.length - s_aba.length) ∧
    (∃ r, rabinKarpSearch s_abababa s_aba = some r ∧ r.Sorted (· < ·) ∧
      ∀ p ∈ r, p ≤ s_abababa.length - s_aba.length) :=
  positions_increasing_in_range s_abababa s_aba (by unfold IsStr; decide)
    (by unfold IsStr; decide) (by decide) (by decide) (by decide)

/-! ## Proofs for `strstrSearch` -/

theorem cstr_of_noNul {s : Str} (h : NoNul s) {p : Nat} (hp : p ≤ s.length) :
    cstr s p = some (s.drop p) := by
  unfold cstr
  rw [if_pos hp, List.takeWhile_eq_self_iff.mpr]
  intro x hx
  have hmem : x ∈ s := List.mem_of_mem_drop hx
  have hne : x ≠ 0 := fun h0 => h (h0 ▸ hmem)
  simpa using hne

theorem occurs_drop (text pattern : Str) (p i : Nat) (hp : p ≤ text.length) :
    Occurs (text.drop p) pattern i ↔ Occurs text pattern (p + i) := by
  unfold Occurs
  rw [List.length_drop]
  have hget : ∀ j, (text.drop p).getD (i + j) 0 = text.getD (p + i + j) 0 := by
    intro j
    simp only [List.getD_eq_getElem?_getD, List.getElem?_drop, Nat.add_assoc]
  constructor
  · intro h
    exact ⟨by have := h.1; omega, fun j hj => by rw [← hget j]; exact h.2 j hj⟩
  · intro h
    exact ⟨by have := h.1; omega, fun j hj => by rw [hget j]; exact h.2 j hj⟩

/-- On strings without NUL, `strstr` from offset `p` finds what `find` from `p` finds. -/
theorem strstr_eq_find (text pattern : Str) (ht : NoNul text) (hpat : NoNul pattern)
    (hn : text.length + 1 < 2 ^ 64) (p : Nat) (hp : p ≤ text.length) :
    strstr text p pattern = some (toPtr (find text pattern p)) := by
  unfold strstr
  rw [cstr_of_noNul ht hp, cstr_of_noNul hpat (Nat.zero_le _), List.drop_zero]
  simp only []
  rcases find_cases (text.drop p) pattern 0 with ⟨hA, hnoA⟩ | ⟨_, hoccA, hleastA⟩
  · rcases find_cases text pattern p with ⟨hB, _⟩ | ⟨hleB, hoccB, _⟩
    · rw [if_pos hA, hB]
      rfl
    · exfalso
      have : Occurs (text.drop p) pattern (find text pattern p - p) := by
        rw [occurs_drop text pattern p _ hp, show p + (find text pattern p - p) =
          find text pattern p by omega]
        exact hoccB
      exact hnoA _ (Nat.zero_le _) this
  · have hoccT : Occurs text pattern (p + find (text.drop p) pattern 0) :=
      (occurs_drop text pattern p _ hp).mp hoccA
    have hAn : find (text.drop p) pattern 0 ≠ npos := by
      have := hoccT.1
      unfold npos
      omega
    rcases find_cases text pattern p with ⟨_, hnoB⟩ | ⟨hleB, hoccB, hleastB⟩
    · exact absurd hoccT (hnoB _ (by omega))
    · have h1 : ¬ (p + find (text.drop p) pattern 0 < find text pattern p) :=
        fun hlt => hleastB _ (by omega) hlt hoccT
      have h2 : ¬ (find text pattern p - p < find (text.drop p) pattern 0) := by
        intro hlt
        apply hleastA _ (Nat.zero_le _) hlt
        rw [occurs_drop text pattern p _ hp, show p + (find text pattern p - p) =
          find text pattern p by omega]
        exact hoccB
      have heq : p + find (text.drop p) pattern 0 = find text pattern p := by omega
      have hBn : find text pattern p ≠ npos := by
        have := hoccB.1
        unfold npos
        omega
      rw [if_neg hAn, heq]
      unfold toPtr
      rw [if_neg hBn]

/-- On strings without NUL and a non-empty pattern, the loop of `strstrSearch` runs in step
with the loop of `stdStringFind`. -/
theorem strstrLoop_eq_stdFindLoop (text pattern : Str) (ht : NoNul text) (hpat : NoNul pattern)
    (hm : pattern ≠ []) (hn : text.length + 1 < 2 ^ 64) :
    ∀ fuel p positions,
      strstrLoop text pattern fuel (toPtr (find text pattern p)) positions =
        stdFindLoop text pattern fuel (find text pattern p) positions := by
  have hm0 : 0 < pattern.length := List.length_pos.mpr hm
  intro fuel
  induction fuel with
  | zero =>
    intro p positions
    rfl
  | succ fuel ih =>
    intro p positions
    rcases find_cases text pattern p with ⟨hB, _⟩ | ⟨_, hoccB, _⟩
    · rw [hB]
      rfl
    · generalize find text pattern p = pos at hoccB
      have hle := hoccB.1
      have hne : pos ≠ npos := by
        unfold npos
        omega
      have hmod : (pos + 1) % SIZE_T = pos + 1 := by
        unfold SIZE_T
        omega
      have hptr : toPtr pos = some pos := by
        unfold toPtr
        rw [if_neg hne]
      have hstep1 : strstrLoop text pattern (fuel + 1) (some pos) positions =
          strstrLoop text pattern fuel (toPtr (find text pattern (pos + 1)))
            (positions ++ [pos]) := by
        conv_lhs => unfold strstrLoop
        rw [strstr_eq_find text pattern ht hpat hn (pos + 1) (by omega)]
      have hstep2 : stdFindLoop text pattern (fuel + 1) pos positions =
          stdFindLoop text pattern fuel (find text pattern (pos + 1)) (positions ++ [pos]) := by
        conv_lhs => unfold stdFindLoop
        rw [if_pos hne, hmod]
      rw [hptr, hstep1, hstep2]
      exact ih (pos + 1) (positions ++ [pos])

theorem strstrSearch_eq (text pattern : Str) (ht : NoNul text) (hpat : NoNul pattern)
    (hm : pattern ≠ []) (hn : text.length + 1 < 2 ^ 64) :
    strstrSearch text pattern = some (allOccurrences text pattern) := by
  rw [← stdStringFind_eq text pattern hn]
  unfold strstrSearch stdStringFind
  rw [strstr_eq_find text pattern ht hpat hn 0 (Nat.zero_le _)]
  exact strstrLoop_eq_stdFindLoop text pattern ht hpat hm hn _ 0 []

/-! ## Further facts on `createHash`, `rabinKarpSearch` and the prefix table -/

theorem allOccurrences_self (s : Str) : allOccurrences s s = [0] := by
  unfold allOccurrences
  have h1 : s.length + 1 - s.length = 1 := by omega
  have hocc : Occurs s s 0 := ⟨by omega, fun j _ => by rw [Nat.zero_add]⟩
  rw [h1]
  simp [List.range_succ, hocc]

/-- With a pattern as long as the text, `rabinKarpSearch` compares the two hashes once. -/
theorem rabinKarpSearch_self (s : Str) (hc : IsStr s) (hn : s.length < 2 ^ 31) :
    rabinKarpSearch s s = some [0] := by
  obtain ⟨h, hh, hh1, hh2⟩ := createHash_some s hc s.length (le_refl _)
  obtain ⟨pw, hpw, hpw1, hpw2⟩ := powerLoop_some ((s.length : Int) - 1).toNat 1
    (by omega) (by unfold MOD; omega)
  have hcnt : ((s.length : Int) - (s.length : Int) + 1).toNat = 0 + 1 := by omega
  have hloop := rkLoop_succ s hc s.length s.length rfl hn h pw hpw1 hpw2 0 0 h [] []
    (by omega) hh1 hh2
  rw [if_pos rfl] at hloop
  unfold rabinKarpSearch rabinKarpRun
  simp only []
  rw [toInt_of_lt hn, if_neg (by omega)]
  simp only [hh, hpw, Option.bind_eq_bind, Option.some_bind, hcnt, hloop]
  rfl

theorem windowValue_eq_sum (s : Str) : ∀ L,
    windowValue s 0 L =
      Finset.sum (Finset.range L) (fun i => s.getD i 0 * PRIME ^ (L - 1 - i)) := by
  intro L
  induction L with
  | zero => rfl
  | succ L ih =>
    rw [windowValue_succ, ih, Finset.sum_range_succ, Finset.sum_mul, Nat.zero_add]
    have hlast : L + 1 - 1 - L = 0 := by omega
    rw [hlast, pow_zero, mul_one]
    congr 1
    apply Finset.sum_congr rfl
    intro i hi
    rw [Finset.mem_range] at hi
    have hexp : L + 1 - 1 - i = (L - 1 - i) + 1 := by omega
    rw [hexp, pow_succ, mul_assoc]

theorem createHashLoop_succ (str : Str) (left i : Nat) (hash : Int) :
    createHashLoop str (left + 1) i hash =
      (strAt str i).bind (fun c => (i64 (hash * PRIME)).bind (fun t =>
        (i64 (t + c)).bind (fun v => createHashLoop str left (i + 1) (cmod v MOD)))) := by
  conv_lhs => unfold createHashLoop
  rfl

/-- A run of `createHash` over `a + b` characters passes through the state that the run over
the first `a` characters ends in. -/
theorem createHashLoop_add (str : Str) : ∀ a b i hash,
    createHashLoop str (a + b) i hash =
      (createHashLoop str a i hash).bind (fun h => createHashLoop str b (i + a) h) := by
  intro a
  induction a with
  | zero =>
    intro b i hash
    rw [Nat.zero_add]
    rfl
  | succ a ih =>
    intro b i hash
    have e : a + 1 + b = (a + b) + 1 := by omega
    rw [e, createHashLoop_succ str (a + b) i hash, createHashLoop_succ str a i hash]
    cases strAt str i with
    | none => rfl
    | some c =>
      simp only [Option.some_bind]
      cases i64 (hash * PRIME) with
      | none => rfl
      | some t =>
        simp only [Option.some_bind]
        cases i64 (t + c) with
        | none => rfl
        | some v =>
          simp only [Option.some_bind]
          rw [ih b (i + 1) (cmod v MOD), show i + 1 + a = i + (a + 1) by omega]

/-- With a table whose entry `L - 1` is below `L`, the `while` loop of the KMP routines ends
after at most `k` steps, on a counter that is at most `k`. -/
theorem fallback_terminates (p : Str) (tbl : List Nat) (hlen : tbl.length = p.length)
    (hb : ∀ L, 0 < L → L ≤ p.length → tbl.getD (L - 1) 0 < L) (c : Int) :
    ∀ fuel k, k ≤ p.length → k < fuel →
      ∃ r, fallback p tbl c fuel k = some r ∧ r ≤ k := by
  intro fuel
  induction fuel with
  | zero =>
    intro k _ h
    omega
  | succ fuel ih =>
    intro k hk hfuel
    unfold fallback
    by_cases hpos : 0 < k
    · rw [if_pos hpos, strAt_of_le hk]
      simp only []
      by_cases hc : p.getD k 0 = c
      · rw [if_neg (not_not_intro hc)]
        exact ⟨k, rfl, le_refl k⟩
      · rw [if_pos hc, vecAt_pred hpos (by omega)]
        simp only []
        have hlt := hb k hpos hk
        obtain ⟨r, hr1, hr2⟩ := ih (tbl.getD (k - 1) 0) (by omega) (by omega)
        exact ⟨r, hr1, by omega⟩
    · rw [if_neg hpos]
      exact ⟨k, rfl, le_refl k⟩

/-- With non-negative codes, every true occurrence is among the offsets that
`rabinKarpSearch` returns. -/
theorem rabinKarpSearch_complete_of_nonneg (text pattern : Str) (ht : IsNonneg text)
    (hp : IsNonneg pattern) (hm0 : 0 < pattern.length) (hmn : pattern.length ≤ text.length)
    (hn : text.length < 2 ^ 31) :
    ∃ r, rabinKarpSearch text pattern = some r ∧ ∀ i, Occurs text pattern i → i ∈ r := by
  refine ⟨_, by unfold rabinKarpSearch; rw [rabinKarpRun_nonneg text pattern ht hp hm0 hmn hn,
    Option.map_some'], ?_⟩
  intro i hocc
  have hle := hocc.1
  rw [List.mem_filter, List.mem_range, decide_eq_true_eq]
  refine ⟨by omega, ?_⟩
  rw [windowValue_congr pattern text pattern.length 0 i (fun t ht => by
    rw [Nat.zero_add]
    exact (hocc.2 t ht).symm)]

/-! ## The results, continued -/

/-- C11, evaluated on the code: for the text `a` and the empty pattern, `naiveSearch` and
`stdStringFind` return `[0, 1]` but `rabinKarpSearch` returns `[0]` only. With `m = 0` the
rolling update still subtracts `text[i] * power` and adds `text[i + m]`, so from `i = 1` on
`textHash` is no longer the hash `0` of the empty window. -/
theorem rabinKarpSearch_empty_pattern_differs :
    naiveSearch s_a s_empty = some [0, 1] ∧ stdStringFind s_a s_empty = some [0, 1] ∧
      rabinKarpSearch s_a s_empty = some [0] := by
  decide

/-- For every non-empty string `s` of a length below `2^31`, each of `naiveSearch`,
`stdStringFind`, `kmpSearch` and `rabinKarpSearch` applied to the text `s` and the pattern `s`
returns `[0]`. -/
theorem full_string_match (s : Str) (hs : s ≠ []) (hc : IsStr s) (hn : s.length < 2 ^ 31) :
    naiveSearch s s = some [0] ∧ stdStringFind s s = some [0] ∧ kmpSearch s s = some [0] ∧
      rabinKarpSearch s s = some [0] := by
  have hm0 : 0 < s.length := List.length_pos.mpr hs
  refine ⟨?_, ?_, ?_, rabinKarpSearch_self s hc hn⟩
  · rw [naiveSearch_eq s s (le_refl _) (by omega), allOccurrences_self]
  · rw [stdStringFind_eq s s (by omega), allOccurrences_self]
  · rw [kmpSearch_eq s s hm0 hn hn, allOccurrences_self]

/-- The full-string match at the string `abc`. -/
theorem full_string_match_witness :
    s_abc ≠ [] ∧ naiveSearch s_abc s_abc = some [0] ∧ stdStringFind s_abc s_abc = some [0] ∧
      kmpSearch s_abc s_abc = some [0] ∧ rabinKarpSearch s_abc s_abc = some [0] :=
  ⟨by decide, full_string_match s_abc (by decide) (by unfold IsStr; decide) (by decide)⟩

/-- C13: for the text `hello world` and the pattern `world`, each of the five registered
algorithms returns `[6]`. -/
theorem hello_world_match :
    naiveSearch s_hello_world s_world = some [6] ∧
    stdStringFind s_hello_world s_world = some [6] ∧
    strstrSearch s_hello_world s_world = some [6] ∧
    kmpSearch s_hello_world s_world = some [6] ∧
    rabinKarpSearch s_hello_world s_world = some [6] := by
  decide

/-- C14: for the text `abcdef` and the pattern `xyz`, each of the five registered algorithms
returns the empty sequence. -/
theorem abcdef_no_match :
    naiveSearch s_abcdef s_xyz = some [] ∧
    stdStringFind s_abcdef s_xyz = some [] ∧
    strstrSearch s_abcdef s_xyz = some [] ∧
    kmpSearch s_abcdef s_xyz = some [] ∧
    rabinKarpSearch s_abcdef s_xyz = some [] := by
  decide

/-- C15, evaluated on the code: the pattern `é` (two UTF-8 bytes with negative `char` codes)
occurs in the text `aé` at offset 1, as `naiveSearch` finds, but `rabinKarpSearch` returns the
empty sequence: it misses a true occurrence. -/
theorem rabinKarpSearch_misses_occurrence :
    Occurs s_a_eacute s_eacute 1 ∧ naiveSearch s_a_eacute s_eacute = some [1] ∧
      rabinKarpSearch s_a_eacute s_eacute = some [] := by
  decide

/-- For every text and pattern with `1 <= m <= n` and `n` below `2^31` whose character
codes are all non-negative, `rabinKarpSearch` returns exactly the offsets `i` in `0..n-m` for
which `createHash` on the window `text[i..i+m)` equals `createHash` on the pattern; the
characters themselves are never compared. -/
theorem rabinKarpSearch_iff_hash_eq (text pattern : Str) (ht : IsNonneg text)
    (hp : IsNonneg pattern) (hm0 : 1 ≤ pattern.length) (hmn : pattern.length ≤ text.length)
    (hn : text.length < 2 ^ 31) :
    ∃ r ph, rabinKarpSearch text pattern = some r ∧
      createHash pattern (pattern.length : Int) = some ph ∧
      ∀ i, i ∈ r ↔ i ≤ text.length - pattern.length ∧
        createHash ((text.drop i).take pattern.length) (pattern.length : Int) = some ph := by
  refine ⟨_, _, by unfold rabinKarpSearch; rw [rabinKarpRun_nonneg text pattern ht hp hm0 hmn hn,
    Option.map_some'], createHash_nonneg pattern hp pattern.length (le_refl _), ?_⟩
  intro i
  rw [List.mem_filter, List.mem_range, decide_eq_true_eq]
  constructor
  · intro h
    refine ⟨by omega, ?_⟩
    rw [createHash_window text ht i pattern.length (by omega), h.2]
  · intro h
    refine ⟨by omega, ?_⟩
    have h2 := h.2
    rw [createHash_window text ht i pattern.length (by omega)] at h2
    exact (Option.some.inj h2).symm

/-- The hash criterion at the text `.zpfq` and the pattern `Harry`. Offset 0 is returned,
because the hashes
are equal, although the text is not the pattern. -/
theorem rabinKarpSearch_iff_hash_eq_witness :
    s_zpfq ≠ s_Harry ∧
    ∃ r ph, rabinKarpSearch s_zpfq s_Harry = some r ∧
      createHash s_Harry (s_Harry.length : Int) = some ph ∧
      ∀ i, i ∈ r ↔ i ≤ s_zpfq.length - s_Harry.length ∧
        createHash ((s_zpfq.drop i).take s_Harry.length) (s_Harry.length : Int) = some ph :=
  ⟨by decide, rabinKarpSearch_iff_hash_eq s_zpfq s_Harry (by unfold IsNonneg; decide)
    (by unfold IsNonneg; decide) (by decide) (by decide) (by decide)⟩

/-- C17: for every string `s` whose character codes are all non-negative and every length
`L <= len(s)`, `createHash(s, L)` is the sum of `s[i] * 257^(L-1-i)` over `i < L` modulo
`1000000007`, it lies in `[0, 1000000007)`, and no intermediate value leaves the range of a
signed 64-bit integer: the run reaches each iteration `k < L` with a hash `h` for which
`h * PRIME` and `h * PRIME + s[k]` lie in `[0, 2^63)`. -/
theorem createHash_closed_form (s : Str) (L : Nat) (hs : IsNonneg s) (hL : L ≤ s.length) :
    createHash s (L : Int) =
        some (Finset.sum (Finset.range L) (fun i => s.getD i 0 * 257 ^ (L - 1 - i))
          % 1000000007) ∧
      0 ≤ Finset.sum (Finset.range L) (fun i => s.getD i 0 * 257 ^ (L - 1 - i)) % 1000000007 ∧
      Finset.sum (Finset.range L) (fun i => s.getD i 0 * 257 ^ (L - 1 - i)) % 1000000007
        < 1000000007 ∧
      ∀ k, k < L → ∃ h, createHashLoop s k 0 0 = some h ∧
        createHashLoop s L 0 0 = createHashLoop s (L - k) k h ∧
        0 ≤ h * PRIME ∧ h * PRIME < 2 ^ 63 ∧
        0 ≤ h * PRIME + s.getD k 0 ∧ h * PRIME + s.getD k 0 < 2 ^ 63 := by
  have hform := createHash_nonneg s hs L hL
  rw [windowValue_eq_sum] at hform
  refine ⟨hform, Int.emod_nonneg _ (by omega), Int.emod_lt_of_pos _ (by omega), ?_⟩
  intro k hk
  have hpre := createHashLoop_nonneg s hs k 0 0 (by omega) (le_refl 0) (by unfold MOD; omega)
  have hsplit := createHashLoop_add s k (L - k) 0 0
  rw [show k + (L - k) = L by omega, hpre, Option.some_bind, Nat.zero_add] at hsplit
  refine ⟨_, hpre, hsplit, ?_⟩
  have h0 : 0 ≤ (0 * PRIME ^ k + windowValue s 0 k) % MOD :=
    Int.emod_nonneg _ (by unfold MOD; omega)
  have h1 : (0 * PRIME ^ k + windowValue s 0 k) % MOD < MOD :=
    Int.emod_lt_of_pos _ (by unfold MOD; omega)
  have hc := getD_isChar (isStr_of_isNonneg hs) k
  have hc0 := getD_nonneg hs k
  generalize (0 * PRIME ^ k + windowValue s 0 k) % MOD = h at h0 h1
  unfold MOD at h1
  unfold PRIME
  omega

/-- C17 at the string `abc` and the length 3. -/
theorem createHash_closed_form_witness :
    createHash s_abc 3 = some 6432038 ∧
    createHash s_abc ((3 : Nat) : Int) =
        some (Finset.sum (Finset.range 3) (fun i => s_abc.getD i 0 * 257 ^ (3 - 1 - i))
          % 1000000007) ∧
      0 ≤ Finset.sum (Finset.range 3) (fun i => s_abc.getD i 0 * 257 ^ (3 - 1 - i))
        % 1000000007 ∧
      Finset.sum (Finset.range 3) (fun i => s_abc.getD i 0 * 257 ^ (3 - 1 - i)) % 1000000007
        < 1000000007 ∧
      ∀ k, k < 3 → ∃ h, createHashLoop s_abc k 0 0 = some h ∧
        createHashLoop s_abc 3 0 0 = createHashLoop s_abc (3 - k) k h ∧
        0 ≤ h * PRIME ∧ h * PRIME < 2 ^ 63 ∧
        0 ≤ h * PRIME + s_abc.getD k 0 ∧ h * PRIME + s_abc.getD k 0 < 2 ^ 63 :=
  ⟨by decide, createHash_closed_form s_abc 3 (by unfold IsNonneg; decide) (by decide)⟩

/-- C18, evaluated on the code: for the text `a`, NUL, `a` and the pattern `a`,
`strstrSearch` stops at the NUL and returns `[0]` where `stdStringFind` returns `[0, 2]`; for
the text `a` and the pattern `a`, NUL, `strstrSearch` searches for `a` and returns `[0]` where
`stdStringFind` returns the empty sequence. -/
theorem strstrSearch_differs_on_nul :
    strstrSearch s_a_nul_a s_a = some [0] ∧ stdStringFind s_a_nul_a s_a = some [0, 2] ∧
      strstrSearch s_a s_a_nul = some [0] ∧ stdStringFind s_a s_a_nul = some [] := by
  decide

/-- For every text without a NUL character and every non-empty pattern without
a NUL character, `strstrSearch` returns the same sequence as `stdStringFind`. -/
theorem strstrSearch_eq_stdStringFind (text pattern : Str) (ht : NoNul text)
    (hpat : NoNul pattern) (hm : pattern ≠ []) (hn : text.length + 1 < 2 ^ 64) :
    ∃ r, strstrSearch text pattern = some r ∧ stdStringFind text pattern = some r :=
  ⟨allOccurrences text pattern, strstrSearch_eq text pattern ht hpat hm hn,
    stdStringFind_eq text pattern hn⟩

/-- The agreement of `strstrSearch` and `stdStringFind` at the text `abababa` and the
pattern `aba`. -/
theorem strstrSearch_eq_stdStringFind_witness :
    strstrSearch s_abababa s_aba = some [0, 2, 4] ∧
    ∃ r, strstrSearch s_abababa s_aba = some r ∧ stdStringFind s_abababa s_aba = some r :=
  ⟨by decide, strstrSearch_eq_stdStringFind s_abababa s_aba (by unfold NoNul; decide)
    (by unfold NoNul; decide) (by decide) (by decide)⟩

/-- C19, evaluated on the code: for the text `a` and the empty pattern, `kmpSearch` has no
defined result. `computePrefixFunction` returns the empty table, the first iteration ends with
`q == m` (both 0) and evaluates `prefix[q - 1]`, that is `prefix[-1]` on an empty vector. -/
theorem kmpSearch_empty_pattern_out_of_range :
    computePrefixFunction s_empty = some [] ∧ vecAt [] ((0 : Int) - 1) = none ∧
      kmpSearch s_a s_empty = none := by
  decide

/-- For every pattern of a length `m >= 1` below `2^31`, the table that
`computePrefixFunction` returns has `table[0] = 0` and `table[i] <= i` for every `i < m`.
Hence each fallback `k = prefix[k - 1]` with `1 <= k <= m` yields a smaller counter, the
`while` loop started at any `k <= m` ends within `k + 1` tests on a counter that is at most
`k`, and `kmpSearch` returns a result on every text. -/
theorem prefix_table_entries_bounded (pattern : Str) (hm0 : 1 ≤ pattern.length)
    (hm : pattern.length < 2 ^ 31) :
    ∃ tbl, computePrefixFunction pattern = some tbl ∧ tbl.length = pattern.length ∧
      tbl[0]? = some 0 ∧
      (∀ i, i < pattern.length → ∃ k, tbl[i]? = some k ∧ k ≤ i) ∧
      (∀ k : Nat, 1 ≤ k → k ≤ pattern.length →
        ∃ k1, vecAt tbl ((k : Int) - 1) = some k1 ∧ k1 < k) ∧
      (∀ c fuel k, k ≤ pattern.length → k < fuel →
        ∃ r, fallback pattern tbl c fuel k = some r ∧ r ≤ k) ∧
      (∀ text : Str, text.length < 2 ^ 31 → ∃ r, kmpSearch text pattern = some r) := by
  obtain ⟨tbl, h1, h2, h3⟩ := computePrefixFunction_spec pattern hm
  have hb : ∀ L, 0 < L → L ≤ pattern.length → tbl.getD (L - 1) 0 < L :=
    fun L hL0 hL => (h3 L hL0 hL).1
  have hget : ∀ i, i < pattern.length → tbl[i]? = some (tbl.getD i 0) := by
    intro i hi
    rw [List.getD_eq_getElem?_getD, List.getElem?_eq_getElem (by omega)]
    rfl
  refine ⟨tbl, h1, h2, ?_, ?_, ?_, ?_, ?_⟩
  · have hlt : tbl.getD (0 + 1 - 1) 0 < 0 + 1 := hb (0 + 1) (by omega) hm0
    rw [Nat.add_sub_cancel] at hlt
    have h0 : tbl.getD 0 0 = 0 := by omega
    rw [hget 0 (by omega), h0]
  · intro i hi
    have hlt : tbl.getD (i + 1 - 1) 0 < i + 1 := hb (i + 1) (by omega) (by omega)
    rw [Nat.add_sub_cancel] at hlt
    exact ⟨tbl.getD i 0, hget i hi, by omega⟩
  · intro k hk1 hk
    exact ⟨tbl.getD (k - 1) 0, vecAt_pred (by omega) (by omega), hb k (by omega) hk⟩
  · intro c fuel k hk hfuel
    exact fallback_terminates pattern tbl h2 hb c fuel k hk hfuel
  · intro text hn
    exact ⟨_, kmpSearch_eq text pattern (by omega) hn hm⟩

/-- The bounds of the table at the pattern `ababaca`. -/
theorem prefix_table_entries_bounded_witness :
    ∃ tbl, computePrefixFunction s_ababaca = some tbl ∧ tbl.length = s_ababaca.length ∧
      tbl[0]? = some 0 ∧
      (∀ i, i < s_ababaca.length → ∃ k, tbl[i]? = some k ∧ k ≤ i) ∧
      (∀ k : Nat, 1 ≤ k → k ≤ s_ababaca.length →
        ∃ k1, vecAt tbl ((k : Int) - 1) = some k1 ∧ k1 < k) ∧
      (∀ c fuel k, k ≤ s_ababaca.length → k < fuel →
        ∃ r, fallback s_ababaca tbl c fuel k = some r ∧ r ≤ k) ∧
      (∀ text : Str, text.length < 2 ^ 31 → ∃ r, kmpSearch text s_ababaca = some r) :=
  prefix_table_entries_bounded s_ababaca (by decide) (by decide)

/-! ## Strings whose length is no `int` -/

theorem length_s_long : s_long.length = 2 ^ 31 := by
  unfold s_long
  rw [List.length_replicate]

theorem length_s_longer : s_longer.length = 2 ^ 31 + 1 := by
  unfold s_longer
  rw [List.length_replicate]

/-- For a pattern of `2^31` characters or more (below `2^32`), `int m = pattern.length()` is
negative and `vector<int> prefix(m, 0)` fails: `computePrefixFunction` returns no table. -/
theorem computePrefixFunction_of_long (p : Str) (h1 : 2 ^ 31 ≤ p.length)
    (h2 : p.length < 2 ^ 32) : computePrefixFunction p = none := by
  have hneg : toInt p.length < 0 := by
    unfold toInt
    omega
  unfold computePrefixFunction
  simp only []
  rw [if_pos hneg]

/-- For a pattern of `2^31` characters or more (below `2^32`), `kmpSearch` returns no
sequence, whatever the text. -/
theorem kmpSearch_of_long_pattern (text p : Str) (h1 : 2 ^ 31 ≤ p.length)
    (h2 : p.length < 2 ^ 32) : kmpSearch text p = none := by
  unfold kmpSearch
  rw [computePrefixFunction_of_long p h1 h2]
  rfl

theorem kmpSearch_unfold (text p : Str) :
    kmpSearch text p = (computePrefixFunction p).bind (fun pfx =>
      kmpLoop text p (toInt p.length) pfx (toInt text.length).toNat 0 0 []) := by
  unfold kmpSearch
  rfl

/-- For a text of `2^31` characters or more (below `2^32`), `int n = text.length()` is
negative, the loop of `kmpSearch` is not entered and the result is empty. -/
theorem kmpSearch_of_long_text (text p : Str) (tbl : List Nat) (h1 : 2 ^ 31 ≤ text.length)
    (h2 : text.length < 2 ^ 32) (htbl : computePrefixFunction p = some tbl) :
    kmpSearch text p = some [] := by
  have hn : (toInt text.length).toNat = 0 := by
    unfold toInt
    omega
  rw [kmpSearch_unfold, htbl, Option.some_bind, hn]
  rfl

/-- For a text of `2^31` characters or more (below `2^32`) and a pattern within `int`, the
guard `if (m > n)` of `rabinKarpSearch` holds, since `n` is negative: the result is empty. -/
theorem rabinKarpSearch_of_long_text (text p : Str) (h1 : 2 ^ 31 ≤ text.length)
    (h2 : text.length < 2 ^ 32) (hp : p.length < 2 ^ 31) :
    rabinKarpSearch text p = some [] := by
  have hgt : toInt p.length > toInt text.length := by
    unfold toInt
    omega
  unfold rabinKarpSearch rabinKarpRun
  simp only []
  rw [if_pos hgt]
  rfl

/-! ## The results on strings whose length is no `int` -/

/-- C2, evaluated on the code: for the text of `2^31` characters `a` and the pattern `a`,
`kmpSearch` returns the empty sequence, although the pattern occurs at each of the `2^31`
offsets, as `naiveSearch` returns. `int n = text.length()` is negative there and the loop
`for (int i = 0; i < n; ++i)` is not entered. -/
theorem kmpSearch_long_text_finds_nothing :
    kmpSearch s_long s_a = some [] ∧ Occurs s_long s_a 0 ∧
      naiveSearch s_long s_a = some (List.range (2 ^ 31)) := by
  refine ⟨kmpSearch_of_long_text s_long s_a [0] (by rw [length_s_long])
    (by rw [length_s_long]; norm_num) (by decide), ?_, ?_⟩
  · refine ⟨by rw [length_s_long]; decide, ?_⟩
    intro j hj
    have hj0 : j = 0 := by
      have : s_a.length = 1 := rfl
      omega
    subst hj0
    exact getD_replicate 97 (by norm_num)
  · have h := naiveSearch_eq (List.replicate (2 ^ 31) 97) (List.replicate 1 97)
      (by rw [List.length_replicate, List.length_replicate]; norm_num)
      (by rw [List.length_replicate]; norm_num)
    rw [allOccurrences_replicate 97 (2 ^ 31) 1 (by norm_num)] at h
    exact h

/-- C5, evaluated on the code: for the pattern of `2^31` characters `a`,
`computePrefixFunction` returns no table: `int m = pattern.length()` is `-2^31` and
`vector<int> prefix(m, 0)` fails. -/
theorem computePrefixFunction_long_pattern_fails :
    s_long.length = 2 ^ 31 ∧ computePrefixFunction s_long = none :=
  ⟨length_s_long, computePrefixFunction_of_long s_long (by rw [length_s_long])
    (by rw [length_s_long]; norm_num)⟩

/-- C8, evaluated on the code: for the text `ab` and the longer pattern of `2^31` characters
`a`, `kmpSearch` returns no sequence: `computePrefixFunction` fails on the negative `m`. -/
theorem kmpSearch_oversized_long_pattern_fails :
    s_ab.length < s_long.length ∧ kmpSearch s_ab s_long = none :=
  ⟨by rw [length_s_long]; decide, kmpSearch_of_long_pattern s_ab s_long
    (by rw [length_s_long]) (by rw [length_s_long]; norm_num)⟩

/-- C10, evaluated on the code: for the text of `2^31 + 1` characters `a` and the pattern of
`2^31` characters `a` (so `1 <= m <= n`), `kmpSearch` returns no sequence at all. -/
theorem kmpSearch_long_pattern_no_sequence :
    1 ≤ s_long.length ∧ s_long.length ≤ s_longer.length ∧ kmpSearch s_longer s_long = none :=
  ⟨by rw [length_s_long]; norm_num, by rw [length_s_long, length_s_longer]; norm_num,
    kmpSearch_of_long_pattern s_longer s_long (by rw [length_s_long])
      (by rw [length_s_long]; norm_num)⟩

/-- C12, evaluated on the code: for the non-empty string `s` of `2^31` characters `a`,
`kmpSearch` applied to the text `s` and the pattern `s` returns no sequence, where
`naiveSearch` returns `[0]`. -/
theorem full_string_match_fails_on_long :
    s_long ≠ [] ∧ kmpSearch s_long s_long = none ∧ naiveSearch s_long s_long = some [0] := by
  refine ⟨?_, kmpSearch_of_long_pattern s_long s_long (by rw [length_s_long])
    (by rw [length_s_long]; norm_num), ?_⟩
  · intro h
    have := length_s_long
    rw [h] at this
    norm_num at this
  · rw [naiveSearch_eq s_long s_long (le_refl _) (by rw [length_s_long]; norm_num),
      allOccurrences_self]

/-- C16, evaluated on the code: for the text of `2^31` characters `a` and the pattern `a`,
both with non-negative codes and `1 <= m <= n`, `createHash` on the window `text[0..1)` equals
`createHash` on the pattern, yet offset 0 is not returned: `rabinKarpSearch` returns the empty
sequence, because `int n = text.size()` is negative and the guard `if (m > n)` holds. -/
theorem rabinKarpSearch_long_text_ignores_hash :
    IsNonneg s_long ∧ s_a.length ≤ s_long.length ∧
      createHash ((s_long.drop 0).take s_a.length) (s_a.length : Int) =
        createHash s_a (s_a.length : Int) ∧
      rabinKarpSearch s_long s_a = some [] := by
  refine ⟨isNonneg_replicate (by norm_num) (by norm_num) _, by rw [length_s_long]; decide, ?_,
    rabinKarpSearch_of_long_text s_long s_a (by rw [length_s_long])
      (by rw [length_s_long]; norm_num) (by decide)⟩
  have hwin : (s_long.drop 0).take s_a.length = s_a := by
    have e : (2 : Nat) ^ 31 = 2147483647 + 1 := by norm_num
    unfold s_long
    rw [List.drop_zero, e, List.replicate_succ]
    rfl
  rw [hwin]

/-- C20, evaluated on the code: for the pattern of `2^31 + 1` characters `a`,
`computePrefixFunction` returns no table, and `kmpSearch` with this pattern returns no
sequence. -/
theorem prefix_table_missing_for_long_pattern :
    1 ≤ s_longer.length ∧ computePrefixFunction s_longer = none ∧
      kmpSearch s_a s_longer = none :=
  ⟨by rw [length_s_longer]; norm_num,
    computePrefixFunction_of_long s_longer (by rw [length_s_longer]; norm_num)
      (by rw [length_s_longer]; norm_num),
    kmpSearch_of_long_pattern s_a s_longer (by rw [length_s_longer]; norm_num)
      (by rw [length_s_longer]; norm_num)⟩

end YaP4
